import Mathlib

/-!
Verification development for the `maze-solver` repository (Rust).

The definitions below are a shallow embedding of `src/lib.rs`: `Tile`,
`Coordination`, `Agent`, `MazeSolver` and its `solution` method, the
`ManhattanDistance` heuristic, and `Agent::neighbors_in`.  The frontier is
Rust's `std::collections::BinaryHeap`, embedded by its actual algorithms
(`sift_up` on push, and `pop` = swap-with-last + `sift_down_to_bottom`,
which walks the hole to the bottom along greater children, ties preferring
the right child, and then sifts the element back up).  `HashSet` and
`HashMap` are embedded by their value semantics (membership; last insert
wins).  Rust index panics (`maze[y][x]` out of bounds, `maze[0]` on an
empty maze) are made explicit as `Option`/`fault` outcomes.  Machine
`usize` arithmetic coincides with `Nat` arithmetic at every subtraction
site reachable under a grid with at least one row and one column, which is
the regime of every statement proved below.  Loops are written with an
explicit recursion budget (`fuel`); theorems show the budget is never
exhausted on the inputs they cover, so the fueled functions agree with the
Rust loops there.
-/

/-- `enum Tile { Wall, Path }` from `src/lib.rs`. -/
inductive Tile
  | Wall
  | Path
deriving DecidableEq, Repr

/-- `struct Coordination { x: usize, y: usize }` from `src/lib.rs`. -/
structure Coordination where
  x : Nat
  y : Nat
deriving DecidableEq, Repr

/-- `type Maze = Vec<Vec<Tile>>`. -/
abbrev Maze := List (List Tile)

/-- `struct Agent { coordination, steps, priority_points }` from `src/lib.rs`. -/
structure Agent where
  coordination : Coordination
  steps : Nat
  priority_points : Nat
deriving DecidableEq, Repr

/-- `struct MazeSolver { maze, starting_point, ending_point }`. -/
structure MazeSolver where
  maze : Maze
  starting_point : Coordination
  ending_point : Coordination

/-- `Coordination::absolute_manhattan`: `self.x + self.y`. -/
def Coordination.absolute_manhattan (c : Coordination) : Nat :=
  c.x + c.y

/-- `ManhattanDistance::distance`: `from.absolute_manhattan().abs_diff(to.absolute_manhattan())`. -/
def ManhattanDistance.distance (a b : Coordination) : Nat :=
  Nat.dist a.absolute_manhattan b.absolute_manhattan

/-- Lookup of `maze[c.y][c.x]`; `none` models the Rust index panic. -/
def mazeTile? (maze : Maze) (c : Coordination) : Option Tile :=
  match maze.get? c.y with
  | none => none
  | some row => row.get? c.x

/-- `Coordination::is_movable_in`: `maze[self.y][self.x] == Tile::Path`.
`none` models the index panic on an out-of-bounds coordinate. -/
def Coordination.is_movable_in (c : Coordination) (maze : Maze) : Option Bool :=
  match mazeTile? maze c with
  | none => none
  | some Tile.Path => some true
  | some Tile.Wall => some false

/-- `Agent::neighbors_in`.  The Rust `match` tests `0` before
`maze[0].len() - 1`, and pushes the `x`-axis neighbors before the `y`-axis
ones; `none` models the `maze[0]` panic on an empty maze.  The `usize`
subtractions coincide with `Nat` subtraction whenever the maze has at least
one row and one column. -/
def Agent.neighbors_in (a : Agent) (maze : Maze) : Option (List Coordination) :=
  match maze with
  | [] => none
  | row0 :: _ =>
    let x := a.coordination.x
    let y := a.coordination.y
    let xs : List Coordination :=
      if x = 0 then [⟨1, y⟩]
      else if x = row0.length - 1 then [⟨x - 1, y⟩]
      else [⟨x + 1, y⟩, ⟨x - 1, y⟩]
    let ys : List Coordination :=
      if y = 0 then [⟨x, 1⟩]
      else if y = maze.length - 1 then [⟨x, y - 1⟩]
      else [⟨x, y + 1⟩, ⟨x, y - 1⟩]
    some (xs ++ ys)

/-- The derived `Ord for Agent` is `other.priority_points.cmp(&self.priority_points)`:
`a ≤ b` holds iff `b.priority_points ≤ a.priority_points`. -/
def agentLe (a b : Agent) : Bool :=
  b.priority_points ≤ a.priority_points

/-- `BinaryHeap::sift_up` (hole-based): while the hole is above `start = 0`
and the element is greater than the parent, move the parent down; finally
place the element in the hole.  The fuel equals the initial hole position,
which bounds the number of moves since the hole index strictly decreases. -/
def siftUpGo : Nat → List Agent → Agent → Nat → List Agent
  | 0, data, elem, pos => data.set pos elem
  | fuel + 1, data, elem, pos =>
    if pos = 0 then data.set pos elem
    else
      let parent := (pos - 1) / 2
      match data.get? parent with
      | none => data.set pos elem
      | some pa =>
        if agentLe elem pa then data.set pos elem
        else siftUpGo fuel (data.set pos pa) elem parent

/-- `BinaryHeap::push`: append, then `sift_up(0, old_len)`. -/
def heapPush (data : List Agent) (item : Agent) : List Agent :=
  siftUpGo data.length (data ++ [item]) item data.length

/-- `BinaryHeap::sift_down_to_bottom`: walk the hole to the bottom of the
tree along the greater child (ties prefer the right child, as in
`child += (hole.get(child) <= hole.get(child + 1)) as usize`), move a
trailing lone left child up, then `sift_up` the element from the final
hole position. -/
def siftDownGo : Nat → List Agent → Agent → Nat → Nat → List Agent
  | 0, data, elem, pos, _ => data.set pos elem
  | fuel + 1, data, elem, pos, len =>
    let child := 2 * pos + 1
    if child + 1 < len then
      let c1 := (data.get? child).getD elem
      let c2 := (data.get? (child + 1)).getD elem
      let child' := if agentLe c1 c2 then child + 1 else child
      let cv := (data.get? child').getD elem
      siftDownGo fuel (data.set pos cv) elem child' len
    else if child = len - 1 ∧ 0 < len then
      let cv := (data.get? child).getD elem
      siftUpGo child (data.set pos cv) elem child
    else
      siftUpGo pos data elem pos

/-- `BinaryHeap::pop`: remove the last element; if the heap is still
non-empty, swap it with the root (which is returned) and restore the heap
with `sift_down_to_bottom(0)`. -/
def heapPop (data : List Agent) : Option (Agent × List Agent) :=
  match data.getLast? with
  | none => none
  | some last =>
    let rest := data.dropLast
    match rest.get? 0 with
    | none => some (last, [])
    | some root => some (root, siftDownGo (rest.length + 1) rest last 0 rest.length)

/-- `type ExploredSet = HashSet<Coordination>` by its value semantics. -/
abbrev ExploredSet := List Coordination

/-- `HashSet::insert`. -/
def exploredInsert (s : ExploredSet) (c : Coordination) : ExploredSet :=
  if c ∈ s then s else c :: s

/-- `type ParentMap = HashMap<Coordination, Coordination>` by its value
semantics: lookup returns the most recently inserted binding. -/
abbrev ParentMap := List (Coordination × Coordination)

/-- `HashMap::insert` (later inserts shadow earlier ones). -/
def pmInsert (pm : ParentMap) (k v : Coordination) : ParentMap :=
  (k, v) :: pm

/-- `HashMap::get`. -/
def pmFind : ParentMap → Coordination → Option Coordination
  | [], _ => none
  | (k', v) :: rest, k => if k = k' then some v else pmFind rest k

/-- The mutable state of one `MazeSolver::solution` invocation. -/
structure SearchState where
  frontier : List Agent
  explored : ExploredSet
  parent_map : ParentMap
deriving DecidableEq, Repr

/-- Outcome of the `while !frontier.is_empty()` loop.  `fault` models a
Rust index panic; `outOfFuel` marks an exhausted recursion budget. -/
inductive LoopResult
  | found (a : Agent) (st : SearchState)
  | exhausted (st : SearchState)
  | fault
  | outOfFuel
deriving DecidableEq, Repr

/-- The body of the `for neighbor in agent.neighbors_in(&self.maze)` loop:
skip neighbors already explored (the `&&` short-circuits before the
traversability lookup), skip walls, and otherwise push a new agent with
`steps + 1` and record the parent (overwriting any previous entry).
`none` models the index panic inside `is_movable_in`. -/
def expandNeighbors (maze : Maze) (ending : Coordination) (a : Agent) :
    List Coordination → ExploredSet → List Agent → ParentMap →
    Option (List Agent × ParentMap)
  | [], _, fr, pm => some (fr, pm)
  | nb :: rest, explored, fr, pm =>
    if nb ∈ explored then expandNeighbors maze ending a rest explored fr pm
    else
      match nb.is_movable_in maze with
      | none => none
      | some false => expandNeighbors maze ending a rest explored fr pm
      | some true =>
        let new_steps := a.steps + 1
        expandNeighbors maze ending a rest explored
          (heapPush fr ⟨nb, new_steps, new_steps + ManhattanDistance.distance nb ending⟩)
          (pmInsert pm nb a.coordination)

/-- The search loop of `MazeSolver::solution`: pop, insert the popped
coordinate into the explored set, stop if it is the goal, otherwise expand
its neighbors. -/
def searchLoop (maze : Maze) (ending : Coordination) : Nat → SearchState → LoopResult
  | 0, _ => .outOfFuel
  | fuel + 1, st =>
    match heapPop st.frontier with
    | none => .exhausted st
    | some (a, fr') =>
      let explored' := exploredInsert st.explored a.coordination
      if ending = a.coordination then
        .found a ⟨fr', explored', st.parent_map⟩
      else
        match a.neighbors_in maze with
        | none => .fault
        | some nbs =>
          match expandNeighbors maze ending a nbs explored' fr' st.parent_map with
          | none => .fault
          | some (fr'', pm') => searchLoop maze ending fuel ⟨fr'', explored', pm'⟩

/-- The reconstruction loop: starting from `[goal]`, repeatedly look up the
parent of the last element and append it, until a coordinate has no parent
entry.  The caller reverses the result. -/
def reconstructGo (pm : ParentMap) : Nat → List Coordination → Coordination → Option (List Coordination)
  | 0, _, _ => none
  | fuel + 1, acc, cur =>
    match pmFind pm cur with
    | none => some acc
    | some p => reconstructGo pm fuel (acc ++ [p]) p

/-- Total number of cells of the maze. -/
def mazeCells (maze : Maze) : Nat :=
  (maze.map List.length).sum

/-- Recursion budget for the search loop; proved sufficient below. -/
def solveFuel (maze : Maze) : Nat :=
  5 ^ mazeCells maze

/-- Result of `MazeSolver::solution`: `ok` is `Ok(path)`, `noSolution` is
`Err("No solution")`, `fault` is a Rust index panic, and `outOfFuel` marks
an exhausted recursion budget of the embedding. -/
inductive RunResult
  | ok (path : List Coordination)
  | noSolution
  | fault
  | outOfFuel
deriving DecidableEq, Repr

/-- In-bounds test for a coordinate: the row exists and the column index is
inside it. -/
def inBounds (maze : Maze) (c : Coordination) : Bool :=
  match maze.get? c.y with
  | none => false
  | some row => c.x < row.length

/-- The cell at `c` exists and is `Tile::Path` (the spec's "Open"). -/
def isOpen (maze : Maze) (c : Coordination) : Prop :=
  mazeTile? maze c = some Tile.Path

instance (maze : Maze) (c : Coordination) : Decidable (isOpen maze c) :=
  inferInstanceAs (Decidable (mazeTile? maze c = some Tile.Path))

/-- A non-empty rectangular grid of width `w` and height `h` (spec §3). -/
def GoodMaze (maze : Maze) (w h : Nat) : Prop :=
  maze.length = h ∧ ∀ row ∈ maze, row.length = w

instance (maze : Maze) (w h : Nat) : Decidable (GoodMaze maze w h) :=
  inferInstanceAs (Decidable (_ ∧ _))

/-- Orthogonal adjacency: the coordinates differ by exactly one unit on
exactly one axis. -/
def Adjacent (a b : Coordination) : Prop :=
  (a.x = b.x ∧ (a.y + 1 = b.y ∨ b.y + 1 = a.y)) ∨
  (a.y = b.y ∧ (a.x + 1 = b.x ∨ b.x + 1 = a.x))

instance (a b : Coordination) : Decidable (Adjacent a b) :=
  inferInstanceAs (Decidable (_ ∨ _))

/-- The true Manhattan distance `|x1-x2| + |y1-y2|` (spec §8). -/
def manhattan (a b : Coordination) : Nat :=
  Nat.dist a.x b.x + Nat.dist a.y b.y

/-- A sequence of orthogonally adjacent Open cells leading from `s` to `e`. -/
def Connects (maze : Maze) (s e : Coordination) : Prop :=
  ∃ l : List Coordination, l.head? = some s ∧ l.getLast? = some e ∧
    List.Chain' Adjacent l ∧ ∀ c ∈ l, isOpen maze c

/-- `MazeSolver::solution`. -/
def MazeSolver.solution (s : MazeSolver) : RunResult :=
  let initial : Agent :=
    ⟨s.starting_point, 0, ManhattanDistance.distance s.starting_point s.ending_point⟩
  match searchLoop s.maze s.ending_point (solveFuel s.maze) ⟨heapPush [] initial, [], []⟩ with
  | .outOfFuel => .outOfFuel
  | .fault => .fault
  | .exhausted _ => .noSolution
  | .found a st =>
    match reconstructGo st.parent_map (st.parent_map.length + 1) [a.coordination] a.coordination with
    | none => .outOfFuel
    | some acc => .ok acc.reverse

/-- A fully Open row of width 5. -/
def openRow5 : List Tile :=
  [Tile.Path, Tile.Path, Tile.Path, Tile.Path, Tile.Path]

/-- A wall-free 5-wide, 3-tall maze. -/
def openMaze5x3 : Maze :=
  [openRow5, openRow5, openRow5]

/-- The 3x3 all-Open maze `"000","000","000"`. -/
def openMaze3x3 : Maze :=
  [[Tile.Path, Tile.Path, Tile.Path],
   [Tile.Path, Tile.Path, Tile.Path],
   [Tile.Path, Tile.Path, Tile.Path]]

/-- The 3x3 maze `"000","111","000"` whose middle row is fully Blocked. -/
def walledMaze3x3 : Maze :=
  [[Tile.Path, Tile.Path, Tile.Path],
   [Tile.Wall, Tile.Wall, Tile.Wall],
   [Tile.Path, Tile.Path, Tile.Path]]

/-- A single Open column of height 2 (width-1 grid). -/
def column2 : Maze :=
  [[Tile.Path], [Tile.Path]]

/-- A single Open row of width 2 (height-1 grid). -/
def row2 : Maze :=
  [[Tile.Path, Tile.Path]]

/-- A width-1 column of height 3 whose middle cell is Blocked. -/
def blockedColumn3 : Maze :=
  [[Tile.Path], [Tile.Wall], [Tile.Path]]


/-- Parent index in the binary-heap array layout. -/
def heapParent (i : Nat) : Nat :=
  (i - 1) / 2

/-- The max-heap property of the array under the reversed `Agent` ordering
(every child is `≤` its parent, i.e. the parent's `priority_points` is the
smaller). -/
def IsHeap (l : List Agent) : Prop :=
  ∀ i a b, 0 < i → l.get? i = some a → l.get? (heapParent i) = some b →
    agentLe a b = true

/-- The heap property away from a hole at `pos`: all parent-child pairs not
involving the hole are ordered. -/
def HeapHole (l : List Agent) (pos : Nat) : Prop :=
  ∀ i a b, 0 < i → i ≠ pos → heapParent i ≠ pos → l.get? i = some a →
    l.get? (heapParent i) = some b → agentLe a b = true

/-- Every child of the hole at `pos` is `≤ e`. -/
def HoleKids (l : List Agent) (pos : Nat) (e : Agent) : Prop :=
  ∀ i a, 0 < i → heapParent i = pos → l.get? i = some a → agentLe a e = true

/-- Frontier contents reachable by the `BinaryHeap` operations, as they are
during a search. -/
inductive ReachableHeap : List Agent → Prop
  | empty : ReachableHeap []
  | push (d : List Agent) (x : Agent) : ReachableHeap d → ReachableHeap (heapPush d x)
  | pop (d d' : List Agent) (a : Agent) : ReachableHeap d →
      heapPop d = some (a, d') → ReachableHeap d'


/-- A discovery chain for an agent: pairwise-distinct in-bounds coordinates
ending at the agent's coordinate, all earlier ones already explored, of
length `steps + 1`. -/
def AgentChain (maze : Maze) (explored : ExploredSet) (a : Agent) : Prop :=
  ∃ C : List Coordination, C ≠ [] ∧ C.Nodup ∧ C.getLast? = some a.coordination ∧
    (∀ c ∈ C.dropLast, c ∈ explored) ∧ (∀ c ∈ C, inBounds maze c = true) ∧
    C.length = a.steps + 1

/-- Termination potential of a frontier: agents with longer discovery
chains contribute less, and one expansion step strictly decreases the sum. -/
def phi (maze : Maze) (fr : List Agent) : Nat :=
  (fr.map (fun a => 5 ^ (mazeCells maze - a.steps - 1))).sum

/-- Invariants of the parent map during a search. -/
structure PmInv (maze : Maze) (start : Coordination) (explored : ExploredSet)
    (pm : ParentMap) : Prop where
  values_explored : ∀ k v, pmFind pm k = some v → v ∈ explored
  keys_adjacent : ∀ k v, pmFind pm k = some v → Adjacent v k
  keys_open : ∀ k v, pmFind pm k = some v → isOpen maze k
  start_none : pmFind pm start = none
  rank : ∃ r : Coordination → Nat, (∀ c, r c ≤ pm.length) ∧
    ∀ k v, pmFind pm k = some v → r v < r k

/-- Invariant of the search-loop state. -/
structure LoopInv (maze : Maze) (start ending : Coordination) (st : SearchState) : Prop where
  frontier_chains : ∀ a ∈ st.frontier, AgentChain maze st.explored a
  frontier_keys : ∀ a ∈ st.frontier,
    a.coordination = start ∨ pmFind st.parent_map a.coordination ≠ none
  explored_bounds : ∀ c ∈ st.explored, inBounds maze c = true
  explored_keys : ∀ c ∈ st.explored, c ≠ start → pmFind st.parent_map c ≠ none
  start_explored : st.explored ≠ [] → start ∈ st.explored
  start_case : st.explored = [] → st.parent_map = [] ∧
    ∀ a ∈ st.frontier, a.coordination = start
  progress : st.frontier = [] → start ∈ st.explored
  ending_unexplored : ending ∉ st.explored
  pm_inv : PmInv maze start st.explored st.parent_map
  closure : ∀ c ∈ st.explored, ∀ nb : Coordination, Adjacent c nb →
    inBounds maze nb = true → isOpen maze nb →
    nb ∈ st.explored ∨ ∃ a ∈ st.frontier, a.coordination = nb
  frontier_open : ∀ a ∈ st.frontier, isOpen maze a.coordination ∨ a.coordination = start
  explored_open : ∀ c ∈ st.explored, isOpen maze c ∨ c = start

/-- Facts available when the loop stops by popping the goal. -/
structure FoundInv (maze : Maze) (start ending : Coordination) (st : SearchState) : Prop where
  pm_inv : PmInv maze start st.explored st.parent_map
  ending_explored : ending ∈ st.explored
  start_explored : start ∈ st.explored
  explored_keys : ∀ c ∈ st.explored, c ≠ start → pmFind st.parent_map c ≠ none
  explored_open : ∀ c ∈ st.explored, isOpen maze c ∨ c = start

/-- Facts available when the loop stops by frontier exhaustion. -/
structure ExhaustInv (maze : Maze) (start ending : Coordination) (st : SearchState) : Prop where
  start_explored : start ∈ st.explored
  ending_unexplored : ending ∉ st.explored
  closed : ∀ c ∈ st.explored, ∀ nb : Coordination, Adjacent c nb →
    inBounds maze nb = true → isOpen maze nb → nb ∈ st.explored

/-! ### Theorems -/

theorem heapPush_nil (a : Agent) : heapPush [] a = [a] := rfl

theorem heapPop_singleton (a : Agent) : heapPop [a] = some (a, []) := rfl

theorem searchLoop_self (maze : Maze) (c : Coordination) (fuel pri : Nat) :
    searchLoop maze c (fuel + 1) ⟨[⟨c, 0, pri⟩], [], []⟩ =
      LoopResult.found ⟨c, 0, pri⟩ ⟨[], [c], []⟩ := by
  simp [searchLoop, heapPop_singleton, exploredInsert]

theorem solution_self (maze : Maze) (c : Coordination) :
    MazeSolver.solution ⟨maze, c, c⟩ = RunResult.ok [c] := by
  obtain ⟨k, hk⟩ : ∃ k, solveFuel maze = k + 1 := by
    have h : 0 < solveFuel maze := pow_pos (by norm_num) _
    exact ⟨solveFuel maze - 1, by omega⟩
  simp only [MazeSolver.solution, hk, heapPush_nil, searchLoop_self]
  rfl

/-- C9: for every non-empty grid and in-bounds Open coordinate `c`, if
`start = end = c` then `MazeSolver::solution` returns the single-coordinate
path `[c]`, the loop stopping at the first pop. -/
theorem claim_C9 (maze : Maze) (c : Coordination) (hne : maze ≠ [])
    (hb : inBounds maze c = true) (ho : isOpen maze c) :
    MazeSolver.solution ⟨maze, c, c⟩ = RunResult.ok [c] :=
  solution_self maze c

theorem claim_C9_witness :
    ([[Tile.Path]] : Maze) ≠ [] ∧ inBounds [[Tile.Path]] ⟨0, 0⟩ = true ∧
    isOpen [[Tile.Path]] ⟨0, 0⟩ ∧
    MazeSolver.solution ⟨[[Tile.Path]], ⟨0, 0⟩, ⟨0, 0⟩⟩ = RunResult.ok [⟨0, 0⟩] :=
  ⟨by decide, by decide, by decide,
    claim_C9 [[Tile.Path]] ⟨0, 0⟩ (by decide) (by decide) (by decide)⟩

/-- C10: with `start = end = c` the single-coordinate path `[c]` is returned
for every in-bounds `c`, even when the cell at `c` is Blocked: the start
cell's traversability is never consulted. -/
theorem claim_C10 (maze : Maze) (c : Coordination) (hb : inBounds maze c = true) :
    MazeSolver.solution ⟨maze, c, c⟩ = RunResult.ok [c] :=
  solution_self maze c

theorem claim_C10_witness :
    inBounds [[Tile.Wall]] ⟨0, 0⟩ = true ∧
    mazeTile? [[Tile.Wall]] ⟨0, 0⟩ = some Tile.Wall ∧
    MazeSolver.solution ⟨[[Tile.Wall]], ⟨0, 0⟩, ⟨0, 0⟩⟩ = RunResult.ok [⟨0, 0⟩] :=
  ⟨by decide, by decide, claim_C10 [[Tile.Wall]] ⟨0, 0⟩ (by decide)⟩

/-- C6: the heuristic is the absolute difference of coordinate sums
`|(a.x + a.y) - (b.x + b.y)|`, defined and non-negative for all pairs, and
`0` on identical coordinates. -/
theorem claim_C6 :
    (∀ a b : Coordination,
      (ManhattanDistance.distance a b : ℤ) =
        |((a.x : ℤ) + (a.y : ℤ)) - ((b.x : ℤ) + (b.y : ℤ))|) ∧
    (∀ a b : Coordination, 0 ≤ ManhattanDistance.distance a b) ∧
    (∀ a : Coordination, ManhattanDistance.distance a a = 0) := by
  refine ⟨?_, fun a b => Nat.zero_le _, fun a => Nat.dist_self _⟩
  intro a b
  unfold ManhattanDistance.distance Coordination.absolute_manhattan Nat.dist
  rw [Int.abs_eq_natAbs]
  omega

/-- C1 counterexample: on the wall-free 5x3 maze with `start = (3,1)` and
`end = (0,1)`, the returned path (driven by the weakened heuristic and the
overwrite-on-rediscovery parent map) has `5` edges, while the Manhattan
distance `|3-0| + |1-1|` is `3`. -/
theorem claim_C1_counterexample :
    MazeSolver.solution ⟨openMaze5x3, ⟨3, 1⟩, ⟨0, 1⟩⟩ =
      RunResult.ok [⟨3, 1⟩, ⟨3, 0⟩, ⟨2, 0⟩, ⟨1, 0⟩, ⟨1, 1⟩, ⟨0, 1⟩] ∧
    ([(⟨3, 1⟩ : Coordination), ⟨3, 0⟩, ⟨2, 0⟩, ⟨1, 0⟩, ⟨1, 1⟩, ⟨0, 1⟩].length - 1 = 5) ∧
    manhattan ⟨3, 1⟩ ⟨0, 1⟩ = 3 ∧
    isOpen openMaze5x3 ⟨3, 1⟩ ∧ isOpen openMaze5x3 ⟨0, 1⟩ ∧
    inBounds openMaze5x3 ⟨3, 1⟩ = true ∧ inBounds openMaze5x3 ⟨0, 1⟩ = true :=
  ⟨by decide, by decide, by decide, by decide, by decide, by decide, by decide⟩

/-- C4 counterexample: on the single-column 1x2 grid with Open in-bounds
`start = (0,0)` and `end = (0,1)`, the first expansion generates the
out-of-bounds neighbor `(1,0)` (the `x == 0` arm fires before the
`x == width-1` arm) and its traversability lookup faults, so `solution`
ends in the panic branch rather than a path or the no-solution outcome. -/
theorem claim_C4_counterexample :
    MazeSolver.solution ⟨column2, ⟨0, 0⟩, ⟨0, 1⟩⟩ = RunResult.fault ∧
    isOpen column2 ⟨0, 0⟩ ∧ isOpen column2 ⟨0, 1⟩ ∧
    inBounds column2 ⟨0, 0⟩ = true ∧ inBounds column2 ⟨0, 1⟩ = true :=
  ⟨by decide, by decide, by decide, by decide, by decide⟩

/-- C5 counterexample: on the non-empty 1x1 grid, the in-bounds coordinate
`(0,0)` yields the neighbor list `[(1,0), (0,1)]`, which contains
out-of-bounds coordinates, instead of the empty set of in-bounds
orthogonal neighbors. -/
theorem claim_C5_counterexample :
    Agent.neighbors_in ⟨⟨0, 0⟩, 0, 0⟩ [[Tile.Path]] = some [⟨1, 0⟩, ⟨0, 1⟩] ∧
    inBounds [[Tile.Path]] ⟨0, 0⟩ = true ∧
    inBounds [[Tile.Path]] ⟨1, 0⟩ = false ∧
    inBounds [[Tile.Path]] ⟨0, 1⟩ = false :=
  ⟨by decide, by decide, by decide, by decide⟩

/-- C7 counterexample: on the single-row 2x1 grid with in-bounds endpoints
`(0,0)` and `(1,0)`, the search loop ends in the index-fault branch —
neither by popping the goal nor by frontier exhaustion. -/
theorem claim_C7_counterexample :
    searchLoop row2 ⟨1, 0⟩ (solveFuel row2)
      ⟨heapPush [] ⟨⟨0, 0⟩, 0, ManhattanDistance.distance ⟨0, 0⟩ ⟨1, 0⟩⟩, [], []⟩ =
      LoopResult.fault ∧
    inBounds row2 ⟨0, 0⟩ = true ∧ inBounds row2 ⟨1, 0⟩ = true :=
  ⟨by decide, by decide, by decide⟩

theorem blockedColumn3_open_cases (c : Coordination) (h : isOpen blockedColumn3 c) :
    c = ⟨0, 0⟩ ∨ c = ⟨0, 2⟩ := by
  obtain ⟨x, y⟩ := c
  unfold isOpen mazeTile? blockedColumn3 at h
  rcases y with _ | _ | _ | y <;> rcases x with _ | x <;> simp_all [List.get?]

theorem blockedColumn3_not_connects : ¬ Connects blockedColumn3 ⟨0, 0⟩ ⟨0, 2⟩ := by
  rintro ⟨l, hhead, hlast, hchain, hopen⟩
  match l, hhead with
  | c0 :: rest, hhead =>
    have hc0 : c0 = ⟨0, 0⟩ := by simpa using hhead
    subst hc0
    match rest, hlast, hchain with
    | [], hlast, _ => simp [List.getLast?] at hlast
    | c1 :: rest', _, hchain =>
      have hadj : Adjacent ⟨0, 0⟩ c1 := (List.chain'_cons.mp hchain).1
      have hc1 : c1 = ⟨0, 0⟩ ∨ c1 = ⟨0, 2⟩ :=
        blockedColumn3_open_cases c1 (hopen c1 (by simp))
      rcases hc1 with h | h <;> subst h <;> exact absurd hadj (by decide)

/-- C2 counterexample: the width-1 column `"0","1","0"` with Open in-bounds
`start = (0,0)` and `end = (0,2)` has no connecting sequence of Open cells,
yet `solution` faults on an out-of-bounds neighbor instead of returning the
no-solution outcome, so the claimed equivalence fails on this non-empty
rectangular grid. -/
theorem claim_C2_counterexample :
    MazeSolver.solution ⟨blockedColumn3, ⟨0, 0⟩, ⟨0, 2⟩⟩ = RunResult.fault ∧
    MazeSolver.solution ⟨blockedColumn3, ⟨0, 0⟩, ⟨0, 2⟩⟩ ≠ RunResult.noSolution ∧
    ¬ Connects blockedColumn3 ⟨0, 0⟩ ⟨0, 2⟩ ∧
    isOpen blockedColumn3 ⟨0, 0⟩ ∧ isOpen blockedColumn3 ⟨0, 2⟩ ∧
    inBounds blockedColumn3 ⟨0, 0⟩ = true ∧ inBounds blockedColumn3 ⟨0, 2⟩ = true :=
  ⟨by decide, by decide, blockedColumn3_not_connects, by decide, by decide, by decide, by decide⟩

theorem inBounds_iff (maze : Maze) (w h : Nat) (hg : GoodMaze maze w h) (c : Coordination) :
    inBounds maze c = true ↔ (c.x < w ∧ c.y < h) := by
  obtain ⟨hlen, hrows⟩ := hg
  unfold inBounds
  rcases hrow : maze.get? c.y with _ | row
  · have hge : maze.length ≤ c.y := List.get?_eq_none.mp hrow
    simp only [Bool.false_eq_true, false_iff]
    omega
  · have hmem : row ∈ maze := List.get?_mem hrow
    have hrw : row.length = w := hrows row hmem
    have hlt : c.y < maze.length := by
      by_contra hcon
      rw [List.get?_eq_none.mpr (by omega)] at hrow
      exact Option.noConfusion hrow
    simp only [decide_eq_true_eq, hrw]
    omega

theorem neighbors_in_eq (a : Agent) (row0 : List Tile) (tail : List (List Tile)) :
    Agent.neighbors_in a (row0 :: tail) = some (
      (if a.coordination.x = 0 then [(⟨1, a.coordination.y⟩ : Coordination)]
       else if a.coordination.x = row0.length - 1 then [⟨a.coordination.x - 1, a.coordination.y⟩]
       else [⟨a.coordination.x + 1, a.coordination.y⟩, ⟨a.coordination.x - 1, a.coordination.y⟩]) ++
      (if a.coordination.y = 0 then [(⟨a.coordination.x, 1⟩ : Coordination)]
       else if a.coordination.y = tail.length then [⟨a.coordination.x, a.coordination.y - 1⟩]
       else [⟨a.coordination.x, a.coordination.y + 1⟩, ⟨a.coordination.x, a.coordination.y - 1⟩])) := by
  simp [Agent.neighbors_in]

theorem mem_xNbrs {w : Nat} (x y : Nat) (hx : x < w) (hw : 2 ≤ w) (c : Coordination) :
    (c ∈ (if x = 0 then [(⟨1, y⟩ : Coordination)]
          else if x = w - 1 then [⟨x - 1, y⟩]
          else [⟨x + 1, y⟩, ⟨x - 1, y⟩])) ↔
      (c.y = y ∧ (x + 1 = c.x ∨ c.x + 1 = x) ∧ c.x < w) := by
  obtain ⟨cx, cy⟩ := c
  split_ifs with h0 h1 <;> simp [Coordination.mk.injEq] <;> omega

theorem mem_yNbrs {h : Nat} (x y t : Nat) (hy : y < h) (hh : 2 ≤ h) (ht : t = h - 1)
    (c : Coordination) :
    (c ∈ (if y = 0 then [(⟨x, 1⟩ : Coordination)]
          else if y = t then [⟨x, y - 1⟩]
          else [⟨x, y + 1⟩, ⟨x, y - 1⟩])) ↔
      (c.x = x ∧ (y + 1 = c.y ∨ c.y + 1 = y) ∧ c.y < h) := by
  subst ht
  obtain ⟨cx, cy⟩ := c
  split_ifs with h0 h1 <;> simp [Coordination.mk.injEq] <;> omega

theorem xNbrs_nodup {w : Nat} (x y : Nat) :
    (if x = 0 then [(⟨1, y⟩ : Coordination)]
     else if x = w - 1 then [⟨x - 1, y⟩]
     else [⟨x + 1, y⟩, ⟨x - 1, y⟩]).Nodup := by
  split_ifs with h0 h1 <;> simp [Coordination.mk.injEq] <;> omega

theorem yNbrs_nodup {h : Nat} (x y t : Nat) (ht : t = h - 1) :
    (if y = 0 then [(⟨x, 1⟩ : Coordination)]
     else if y = t then [⟨x, y - 1⟩]
     else [⟨x, y + 1⟩, ⟨x, y - 1⟩]).Nodup := by
  subst ht
  split_ifs with h0 h1 <;> simp [Coordination.mk.injEq] <;> omega

theorem xNbrs_length {w : Nat} (x y : Nat) (hx : x < w) (hw : 2 ≤ w) :
    (if x = 0 then [(⟨1, y⟩ : Coordination)]
     else if x = w - 1 then [⟨x - 1, y⟩]
     else [⟨x + 1, y⟩, ⟨x - 1, y⟩]).length = if x = 0 ∨ x = w - 1 then 1 else 2 := by
  split_ifs with h0 h1 <;> simp_all <;> omega

theorem yNbrs_length {h : Nat} (x y t : Nat) (hy : y < h) (hh : 2 ≤ h) (ht : t = h - 1) :
    (if y = 0 then [(⟨x, 1⟩ : Coordination)]
     else if y = t then [⟨x, y - 1⟩]
     else [⟨x, y + 1⟩, ⟨x, y - 1⟩]).length = if y = 0 ∨ y = h - 1 then 1 else 2 := by
  subst ht
  split_ifs with h0 h1 <;> simp_all <;> omega

theorem neighbors_spec (maze : Maze) (w h : Nat) (a : Agent)
    (hg : GoodMaze maze w h) (hw : 2 ≤ w) (hh : 2 ≤ h)
    (hx : a.coordination.x < w) (hy : a.coordination.y < h) :
    ∃ ns, a.neighbors_in maze = some ns ∧
      (∀ c, c ∈ ns ↔ (Adjacent a.coordination c ∧ inBounds maze c = true)) ∧
      ns.Nodup ∧
      ns.length = (if a.coordination.x = 0 ∨ a.coordination.x = w - 1 then 1 else 2) +
        (if a.coordination.y = 0 ∨ a.coordination.y = h - 1 then 1 else 2) ∧
      2 ≤ ns.length ∧ ns.length ≤ 4 := by
  rcases maze with _ | ⟨row0, tail⟩
  · exfalso
    obtain ⟨hlen, -⟩ := hg
    simp at hlen
    omega
  · have hg' := hg
    obtain ⟨hlen, hrows⟩ := hg
    have hw0 : row0.length = w := hrows row0 (by simp)
    have hhl : tail.length = h - 1 := by
      simp at hlen
      omega
    refine ⟨_, neighbors_in_eq a row0 tail, ?_, ?_, ?_, ?_, ?_⟩
    · intro c
      rw [List.mem_append, hw0, mem_xNbrs _ _ hx hw c, mem_yNbrs _ _ _ hy hh hhl c,
        inBounds_iff _ w h hg' c]
      simp only [Adjacent]
      omega
    · rw [List.nodup_append]
      refine ⟨xNbrs_nodup _ _, yNbrs_nodup _ _ _ hhl, ?_⟩
      intro c hcx hcy
      rw [hw0, mem_xNbrs _ _ hx hw c] at hcx
      rw [mem_yNbrs _ _ _ hy hh hhl c] at hcy
      omega
    · rw [List.length_append, hw0, xNbrs_length _ _ hx hw, yNbrs_length _ _ _ hy hh hhl]
    · rw [List.length_append, hw0, xNbrs_length _ _ hx hw, yNbrs_length _ _ _ hy hh hhl]
      split_ifs <;> omega
    · rw [List.length_append, hw0, xNbrs_length _ _ hx hw, yNbrs_length _ _ _ hy hh hhl]
      split_ifs <;> omega

theorem cons_set_perm (t : List Agent) (k : Nat) (a b : Agent) (h : t.get? k = some a) :
    (a :: t.set k b).Perm (b :: t) := by
  induction t generalizing k with
  | nil => simp at h
  | cons x t' ih =>
    rcases k with _ | m
    · simp only [List.get?] at h
      injection h with h
      subst h
      exact List.Perm.swap _ _ _
    · simp only [List.get?] at h
      exact (List.Perm.swap _ _ _).trans (((ih m h).cons x).trans (List.Perm.swap _ _ _))

theorem set_set_swap_perm (l : List Agent) (i j : Nat) (a b : Agent)
    (hi : i < l.length) (hne : i ≠ j) (hja : l.get? j = some a) :
    ((l.set i a).set j b).Perm (l.set i b) := by
  induction l generalizing i j with
  | nil => simp at hja
  | cons x t ih =>
    rcases i with _ | m <;> rcases j with _ | k
    · exact absurd rfl hne
    · simp only [List.get?] at hja
      exact cons_set_perm t k a b hja
    · simp only [List.get?] at hja
      injection hja with hja
      rw [hja]
      have hm : m < t.length := by
        simp at hi
        omega
      have step : (b :: (t.set m b).set m a).Perm (a :: t.set m b) :=
        cons_set_perm (t.set m b) m b a
          (List.get?_set_eq_of_lt b (by simpa using hm))
      rw [List.set_set] at step
      exact step
    · simp only [List.get?] at hja
      exact (ih m k (by simpa using hi) (by omega) hja).cons x

theorem siftUpGo_perm (fuel : Nat) (data : List Agent) (elem : Agent) (pos : Nat)
    (hpos : pos < data.length) :
    (siftUpGo fuel data elem pos).Perm (data.set pos elem) := by
  induction fuel generalizing data pos with
  | zero => exact List.Perm.refl _
  | succ fuel ih =>
    unfold siftUpGo
    by_cases h0 : pos = 0
    · simp only [h0, if_true]
      exact List.Perm.refl _
    · simp only [h0, if_false]
      have hpar : (pos - 1) / 2 < data.length := by
        have : (pos - 1) / 2 < pos := by omega
        omega
      rcases hpa : data.get? ((pos - 1) / 2) with _ | pa
      · rw [List.get?_eq_none] at hpa
      · show (if agentLe elem pa = true then data.set pos elem
            else siftUpGo fuel (data.set pos pa) elem ((pos - 1) / 2)).Perm (data.set pos elem)
        by_cases hle : agentLe elem pa
        · simp only [hle, if_true]
          exact List.Perm.refl _
        · simp only [hle, if_false]
          refine (ih (data.set pos pa) ((pos - 1) / 2) (by simpa using hpar)).trans ?_
          have hget : (data.set pos elem).get? ((pos - 1) / 2) = some pa := by
            rw [List.get?_set_ne _ _ (by omega)]
            exact hpa
          have hstep := set_set_swap_perm (data.set pos elem) pos ((pos - 1) / 2) pa elem
            (by simpa using hpos) (by omega) hget
          rw [List.set_set, List.set_set] at hstep
          exact hstep

theorem siftDownGo_perm (fuel : Nat) (data : List Agent) (elem : Agent) (pos len : Nat)
    (hpos : pos < data.length) (hlen : len ≤ data.length) :
    (siftDownGo fuel data elem pos len).Perm (data.set pos elem) := by
  induction fuel generalizing data pos with
  | zero => exact List.Perm.refl _
  | succ fuel ih =>
    simp only [siftDownGo]
    by_cases hc2 : 2 * pos + 1 + 1 < len
    · rw [if_pos hc2]
      have hltc : (if agentLe ((data.get? (2 * pos + 1)).getD elem)
          ((data.get? (2 * pos + 1 + 1)).getD elem) = true
          then 2 * pos + 1 + 1 else 2 * pos + 1) < data.length := by
        split_ifs <;> omega
      rcases hcv : data.get? (if agentLe ((data.get? (2 * pos + 1)).getD elem)
          ((data.get? (2 * pos + 1 + 1)).getD elem) = true
          then 2 * pos + 1 + 1 else 2 * pos + 1) with _ | cv
      · rw [List.get?_eq_none] at hcv
        omega
      · simp only [Option.getD_some]
        refine (ih (data.set pos cv) _ (by rw [List.length_set]; exact hltc)
          (by rw [List.length_set]; exact hlen)).trans ?_
        have hget : (data.set pos elem).get? (if agentLe ((data.get? (2 * pos + 1)).getD elem)
            ((data.get? (2 * pos + 1 + 1)).getD elem) = true
            then 2 * pos + 1 + 1 else 2 * pos + 1) = some cv := by
          rw [List.get?_set_ne _ _ (by split_ifs <;> omega)]
          exact hcv
        have hstep := set_set_swap_perm (data.set pos elem) pos _ cv elem
          (by rw [List.length_set]; exact hpos) (by split_ifs <;> omega) hget
        rw [List.set_set, List.set_set] at hstep
        exact hstep
    · rw [if_neg hc2]
      by_cases hlast : 2 * pos + 1 = len - 1 ∧ 0 < len
      · rw [if_pos hlast]
        have hcl : 2 * pos + 1 < data.length := by omega
        rcases hcv : data.get? (2 * pos + 1) with _ | cv
        · rw [List.get?_eq_none] at hcv
          omega
        · simp only [Option.getD_some]
          refine (siftUpGo_perm _ _ _ _ (by rw [List.length_set]; exact hcl)).trans ?_
          have hget : (data.set pos elem).get? (2 * pos + 1) = some cv := by
            rw [List.get?_set_ne _ _ (by omega)]
            exact hcv
          have hstep := set_set_swap_perm (data.set pos elem) pos (2 * pos + 1) cv elem
            (by rw [List.length_set]; exact hpos) (by omega) hget
          rw [List.set_set, List.set_set] at hstep
          exact hstep
      · rw [if_neg hlast]
        exact siftUpGo_perm _ _ _ _ hpos

theorem set_append_last (l : List Agent) (a b : Agent) :
    (l ++ [a]).set l.length b = l ++ [b] := by
  induction l with
  | nil => rfl
  | cons x t ih => simpa using ih

theorem heapPush_perm (data : List Agent) (item : Agent) :
    (heapPush data item).Perm (item :: data) := by
  unfold heapPush
  have h1 := siftUpGo_perm data.length (data ++ [item]) item data.length (by simp)
  rw [set_append_last] at h1
  exact h1.trans ((List.perm_append_comm).trans (List.Perm.refl _))

theorem eq_dropLast_append {α : Type} (l : List α) (x : α) (h : l.getLast? = some x) :
    l = l.dropLast ++ [x] := by
  induction l with
  | nil => simp at h
  | cons a t ih =>
    rcases t with _ | ⟨b, t'⟩
    · simp at h
      subst h
      rfl
    · rw [List.getLast?_cons_cons] at h
      have := ih h
      calc a :: b :: t' = a :: (b :: t') := rfl
        _ = a :: ((b :: t').dropLast ++ [x]) := by rw [← this]
        _ = (a :: b :: t').dropLast ++ [x] := by simp

theorem heapPop_perm (data : List Agent) (a : Agent) (d' : List Agent)
    (h : heapPop data = some (a, d')) : (a :: d').Perm data := by
  unfold heapPop at h
  rcases hlast : data.getLast? with _ | last
  · rw [hlast] at h
    exact absurd h (by simp)
  · rw [hlast] at h
    have hdec := eq_dropLast_append data last hlast
    rcases hroot : data.dropLast.get? 0 with _ | root
    · simp only [hroot, Option.some.injEq, Prod.mk.injEq] at h
      obtain ⟨ha, hd⟩ := h
      subst ha
      subst hd
      have hnil : data.dropLast = [] := by
        rw [List.get?_eq_none] at hroot
        exact List.eq_nil_of_length_eq_zero (by omega)
      rw [hdec, hnil]
      exact List.Perm.refl _
    · simp only [hroot, Option.some.injEq, Prod.mk.injEq] at h
      obtain ⟨ha, hd⟩ := h
      subst ha
      subst hd
      have h0 : 0 < data.dropLast.length := by
        by_contra hcon
        rw [List.get?_eq_none.mpr (by omega)] at hroot
        exact Option.noConfusion hroot
      have hperm := siftDownGo_perm (data.dropLast.length + 1) data.dropLast last 0
        data.dropLast.length h0 (Nat.le_refl _)
      refine (hperm.cons root).trans ?_
      rcases hdl : data.dropLast with _ | ⟨r0, tail⟩
      · rw [hdl] at hroot
        simp at hroot
      · rw [hdl] at hroot
        simp only [List.get?] at hroot
        injection hroot with hroot
        subst hroot
        have hdata : data = (r0 :: tail) ++ [last] := by
          rw [hdec, hdl]
        rw [hdata]
        show (r0 :: last :: tail).Perm (r0 :: (tail ++ [last]))
        exact List.Perm.cons r0 (@List.perm_append_comm _ [last] tail)

theorem get?_some_lt {α : Type} {l : List α} {i : Nat} {a : α} (h : l.get? i = some a) :
    i < l.length := by
  by_contra hc
  rw [List.get?_eq_none.mpr (by omega)] at h
  exact Option.noConfusion h

theorem agentLe_refl (a : Agent) : agentLe a a = true := by
  simp [agentLe]

theorem agentLe_trans {a b c : Agent} (h1 : agentLe a b = true) (h2 : agentLe b c = true) :
    agentLe a c = true := by
  simp only [agentLe, decide_eq_true_eq] at *
  omega

theorem agentLe_of_not {a b : Agent} (h : ¬ agentLe a b = true) : agentLe b a = true := by
  simp only [agentLe, decide_eq_true_eq] at *
  omega

theorem heapParent_lt {i : Nat} (h : 0 < i) : heapParent i < i := by
  unfold heapParent
  omega

theorem heapParent_eq_iff {i p : Nat} (h : 0 < i) :
    heapParent i = p ↔ (i = 2 * p + 1 ∨ i = 2 * p + 2) := by
  unfold heapParent
  omega

theorem siftUpGo_isHeap (fuel : Nat) (data : List Agent) (elem : Agent) (pos : Nat)
    (hpos : pos < data.length) (hfuel : pos ≤ fuel)
    (hA : HeapHole data pos)
    (hB : HoleKids data pos elem)
    (hC : ∀ b, 0 < pos → data.get? (heapParent pos) = some b → HoleKids data pos b) :
    IsHeap (siftUpGo fuel data elem pos) := by
  induction fuel generalizing data pos with
  | zero =>
    have hp0 : pos = 0 := by omega
    subst hp0
    show IsHeap (data.set 0 elem)
    intro i a b hi ha hb
    have hine : i ≠ 0 := by omega
    rw [List.get?_set_ne _ _ (by omega)] at ha
    by_cases hpi : heapParent i = 0
    · rw [hpi, List.get?_set_eq_of_lt _ hpos] at hb
      injection hb with hb
      subst hb
      exact hB i a hi hpi ha
    · rw [List.get?_set_ne _ _ (by omega)] at hb
      exact hA i a b hi hine hpi ha hb
  | succ fuel ih =>
    unfold siftUpGo
    by_cases h0 : pos = 0
    · subst h0
      show IsHeap (data.set 0 elem)
      intro i a b hi ha hb
      have hine : i ≠ 0 := by omega
      rw [List.get?_set_ne _ _ (by omega)] at ha
      by_cases hpi : heapParent i = 0
      · rw [hpi, List.get?_set_eq_of_lt _ hpos] at hb
        injection hb with hb
        subst hb
        exact hB i a hi hpi ha
      · rw [List.get?_set_ne _ _ (by omega)] at hb
        exact hA i a b hi hine hpi ha hb
    · rw [if_neg h0]
      have hparlt : (pos - 1) / 2 < data.length := by
        have : (pos - 1) / 2 < pos := by omega
        omega
      show IsHeap (match data.get? ((pos - 1) / 2) with
        | none => data.set pos elem
        | some pa => if agentLe elem pa = true then data.set pos elem
            else siftUpGo fuel (data.set pos pa) elem ((pos - 1) / 2))
      rcases hpa : data.get? ((pos - 1) / 2) with _ | pa
      · rw [List.get?_eq_none] at hpa
        omega
      · show IsHeap (if agentLe elem pa = true then data.set pos elem
            else siftUpGo fuel (data.set pos pa) elem ((pos - 1) / 2))
        have hparpos : (pos - 1) / 2 = heapParent pos := rfl
        by_cases hle : agentLe elem pa
        · rw [if_pos hle]
          intro i a b hi ha hb
          by_cases hip : i = pos
          · subst hip
            rw [List.get?_set_eq_of_lt _ hpos] at ha
            injection ha with ha
            subst ha
            rw [List.get?_set_ne _ _ (by
              have := heapParent_lt (show 0 < i by omega)
              omega)] at hb
            rw [hparpos] at hpa
            rw [hpa] at hb
            injection hb with hb
            subst hb
            exact hle
          · rw [List.get?_set_ne _ _ (by omega)] at ha
            by_cases hpi : heapParent i = pos
            · rw [hpi, List.get?_set_eq_of_lt _ hpos] at hb
              injection hb with hb
              subst hb
              exact hB i a hi hpi ha
            · rw [List.get?_set_ne _ _ (by omega)] at hb
              exact hA i a b hi hip hpi ha hb
        · rw [if_neg hle]
          have hplt : (pos - 1) / 2 < pos := by omega
          refine ih (data.set pos pa) ((pos - 1) / 2)
            (by rw [List.length_set]; exact hparlt) (by omega) ?_ ?_ ?_
          · -- HeapHole (data.set pos pa) ((pos - 1) / 2)
            intro i a b hi hine hpne ha hb
            by_cases hip : i = pos
            · exfalso
              subst hip
              exact hpne rfl
            · rw [List.get?_set_ne _ _ (by omega)] at ha
              by_cases hpi : heapParent i = pos
              · rw [hpi, List.get?_set_eq_of_lt _ hpos] at hb
                injection hb with hb
                subst hb
                exact hC pa (by omega) (by rw [← hparpos]; exact hpa) i a hi hpi ha
              · rw [List.get?_set_ne _ _ (by omega)] at hb
                exact hA i a b hi hip hpi ha hb
          · -- HoleKids (data.set pos pa) ((pos - 1) / 2) elem
            intro i a hi hpi ha
            by_cases hip : i = pos
            · subst hip
              rw [List.get?_set_eq_of_lt _ hpos] at ha
              injection ha with ha
              subst ha
              exact agentLe_of_not hle
            · rw [List.get?_set_ne _ _ (by omega)] at ha
              have hstep : agentLe a pa = true := by
                have hget : data.get? (heapParent i) = some pa := by
                  rw [hpi]
                  exact hpa
                refine hA i a pa hi hip ?_ ha hget
                rw [hpi]
                omega
              exact agentLe_trans hstep (agentLe_of_not hle)
          · -- grandparent condition at the new hole
            intro b hgp hb
            rw [List.get?_set_ne _ _ (by
              have h1 : heapParent ((pos - 1) / 2) < (pos - 1) / 2 := heapParent_lt hgp
              omega)] at hb
            intro i a hi hpi ha
            by_cases hip : i = pos
            · rw [hip, List.get?_set_eq_of_lt _ hpos] at ha
              injection ha with ha
              subst ha
              refine hA ((pos - 1) / 2) pa b (by omega) (by omega) ?_ ?_ ?_
              · have h1 : heapParent ((pos - 1) / 2) < (pos - 1) / 2 := heapParent_lt hgp
                omega
              · exact hpa
              · exact hb
            · rw [List.get?_set_ne _ _ (by omega)] at ha
              have hstep : agentLe a pa = true := by
                have hget : data.get? (heapParent i) = some pa := by
                  rw [hpi]
                  exact hpa
                refine hA i a pa hi hip ?_ ha hget
                rw [hpi]
                omega
              have hstep2 : agentLe pa b = true := by
                refine hA ((pos - 1) / 2) pa b (by omega) (by omega) ?_ hpa hb
                have h1 : heapParent ((pos - 1) / 2) < (pos - 1) / 2 := heapParent_lt hgp
                omega
              exact agentLe_trans hstep hstep2

theorem heapPush_isHeap (data : List Agent) (x : Agent) (hh : IsHeap data) :
    IsHeap (heapPush data x) := by
  unfold heapPush
  refine siftUpGo_isHeap data.length (data ++ [x]) x data.length (by simp)
    (Nat.le_refl _) ?_ ?_ ?_
  · intro i a b hi hine hpne ha hb
    have hil : i < (data ++ [x]).length := get?_some_lt ha
    have hilen : i < data.length := by
      simp only [List.length_append, List.length_singleton] at hil
      omega
    have hpl : heapParent i < data.length := by
      have := heapParent_lt hi
      omega
    rw [List.get?_append hilen] at ha
    rw [List.get?_append hpl] at hb
    exact hh i a b hi ha hb
  · intro i a hi hpi ha
    exfalso
    have hil : i < (data ++ [x]).length := get?_some_lt ha
    have hcases : i = 2 * data.length + 1 ∨ i = 2 * data.length + 2 :=
      (heapParent_eq_iff hi).mp hpi
    simp only [List.length_append, List.length_singleton] at hil
    omega
  · intro b hgp hb i a hi hpi ha
    exfalso
    have hil : i < (data ++ [x]).length := get?_some_lt ha
    have hcases : i = 2 * data.length + 1 ∨ i = 2 * data.length + 2 :=
      (heapParent_eq_iff hi).mp hpi
    simp only [List.length_append, List.length_singleton] at hil
    omega

theorem siftDownGo_isHeap (fuel : Nat) (data : List Agent) (elem : Agent) (pos len : Nat)
    (hlen : len = data.length) (hpos : pos < len) (hfuel : len ≤ fuel + pos)
    (hA : HeapHole data pos)
    (hC : ∀ b, 0 < pos → data.get? (heapParent pos) = some b → HoleKids data pos b) :
    IsHeap (siftDownGo fuel data elem pos len) := by
  induction fuel generalizing data pos with
  | zero => omega
  | succ fuel ih =>
    simp only [siftDownGo]
    by_cases hc2 : 2 * pos + 1 + 1 < len
    · rw [if_pos hc2]
      have hc1lt : 2 * pos + 1 < data.length := by omega
      have hc2lt : 2 * pos + 1 + 1 < data.length := by omega
      rcases h1 : data.get? (2 * pos + 1) with _ | c1v
      · rw [List.get?_eq_none] at h1
        omega
      · rcases h2 : data.get? (2 * pos + 1 + 1) with _ | c2v
        · rw [List.get?_eq_none] at h2
          omega
        · simp only [Option.getD_some]
          have hpp1 : heapParent (2 * pos + 1) = pos := by
            unfold heapParent
            omega
          have hpp2 : heapParent (2 * pos + 1 + 1) = pos := by
            unfold heapParent
            omega
          by_cases hch : agentLe c1v c2v
          · rw [if_pos hch, h2]
            simp only [Option.getD_some]
            refine ih (data.set pos c2v) (2 * pos + 1 + 1)
              (by rw [List.length_set]; exact hlen) hc2 (by omega) ?_ ?_
            · intro i a b hi hine hpne ha hb
              by_cases hip : i = pos
              · rw [hip] at ha hb
                rw [List.get?_set_eq_of_lt _ (by omega)] at ha
                injection ha with ha
                subst ha
                have hppos : 0 < pos := by omega
                have hpart : heapParent pos < pos := heapParent_lt hppos
                rw [List.get?_set_ne _ _ (by omega)] at hb
                exact hC b hppos hb (2 * pos + 1 + 1) c2v (by omega) hpp2 h2
              · rw [List.get?_set_ne _ _ (by omega)] at ha
                by_cases hpi : heapParent i = pos
                · have hieq : i = 2 * pos + 1 := by
                    have := (heapParent_eq_iff hi).mp hpi
                    omega
                  rw [hieq] at ha
                  rw [h1] at ha
                  injection ha with ha
                  subst ha
                  rw [hpi, List.get?_set_eq_of_lt _ (by omega)] at hb
                  injection hb with hb
                  subst hb
                  exact hch
                · rw [List.get?_set_ne _ _ (by omega)] at hb
                  exact hA i a b hi hip hpi ha hb
            · intro b hgp hb i a hi hpi ha
              have hpp : heapParent (2 * pos + 1 + 1) = pos := hpp2
              rw [hpp, List.get?_set_eq_of_lt _ (by omega)] at hb
              injection hb with hb
              subst hb
              have hilg : pos < i := by
                have := (heapParent_eq_iff hi).mp hpi
                omega
              rw [List.get?_set_ne _ _ (by omega)] at ha
              refine hA i a c2v hi (by omega) (by rw [hpi]; omega) ha ?_
              rw [hpi]
              exact h2
          · rw [if_neg hch, h1]
            simp only [Option.getD_some]
            refine ih (data.set pos c1v) (2 * pos + 1)
              (by rw [List.length_set]; exact hlen) (by omega) (by omega) ?_ ?_
            · intro i a b hi hine hpne ha hb
              by_cases hip : i = pos
              · rw [hip] at ha hb
                rw [List.get?_set_eq_of_lt _ (by omega)] at ha
                injection ha with ha
                subst ha
                have hppos : 0 < pos := by omega
                have hpart : heapParent pos < pos := heapParent_lt hppos
                rw [List.get?_set_ne _ _ (by omega)] at hb
                exact hC b hppos hb (2 * pos + 1) c1v (by omega) hpp1 h1
              · rw [List.get?_set_ne _ _ (by omega)] at ha
                by_cases hpi : heapParent i = pos
                · have hieq : i = 2 * pos + 1 + 1 := by
                    have := (heapParent_eq_iff hi).mp hpi
                    omega
                  rw [hieq] at ha
                  rw [h2] at ha
                  injection ha with ha
                  subst ha
                  rw [hpi, List.get?_set_eq_of_lt _ (by omega)] at hb
                  injection hb with hb
                  subst hb
                  exact agentLe_of_not hch
                · rw [List.get?_set_ne _ _ (by omega)] at hb
                  exact hA i a b hi hip hpi ha hb
            · intro b hgp hb i a hi hpi ha
              rw [hpp1, List.get?_set_eq_of_lt _ (by omega)] at hb
              injection hb with hb
              subst hb
              have hilg : pos < i := by
                have := (heapParent_eq_iff hi).mp hpi
                omega
              rw [List.get?_set_ne _ _ (by omega)] at ha
              refine hA i a c1v hi (by omega) (by rw [hpi]; omega) ha ?_
              rw [hpi]
              exact h1
    · rw [if_neg hc2]
      by_cases hlone : 2 * pos + 1 = len - 1 ∧ 0 < len
      · rw [if_pos hlone]
        have hc1lt : 2 * pos + 1 < data.length := by omega
        rcases h1 : data.get? (2 * pos + 1) with _ | c1v
        · rw [List.get?_eq_none] at h1
          omega
        · simp only [Option.getD_some]
          have hpp1 : heapParent (2 * pos + 1) = pos := by
            unfold heapParent
            omega
          refine siftUpGo_isHeap (2 * pos + 1) (data.set pos c1v) elem (2 * pos + 1)
            (by rw [List.length_set]; exact hc1lt) (Nat.le_refl _) ?_ ?_ ?_
          · intro i a b hi hine hpne ha hb
            by_cases hip : i = pos
            · rw [hip] at ha hb
              rw [List.get?_set_eq_of_lt _ (by omega)] at ha
              injection ha with ha
              subst ha
              have hppos : 0 < pos := by omega
              have hpart : heapParent pos < pos := heapParent_lt hppos
              rw [List.get?_set_ne _ _ (by omega)] at hb
              exact hC b hppos hb (2 * pos + 1) c1v (by omega) hpp1 h1
            · rw [List.get?_set_ne _ _ (by omega)] at ha
              by_cases hpi : heapParent i = pos
              · exfalso
                have hieq : i = 2 * pos + 1 + 1 := by
                  have := (heapParent_eq_iff hi).mp hpi
                  omega
                have := get?_some_lt ha
                omega
              · rw [List.get?_set_ne _ _ (by omega)] at hb
                exact hA i a b hi hip hpi ha hb
          · intro i a hi hpi ha
            exfalso
            have := get?_some_lt ha
            rw [List.length_set] at this
            have := (heapParent_eq_iff hi).mp hpi
            omega
          · intro b hgp hb i a hi hpi ha
            exfalso
            have := get?_some_lt ha
            rw [List.length_set] at this
            have := (heapParent_eq_iff hi).mp hpi
            omega
      · rw [if_neg hlone]
        refine siftUpGo_isHeap pos data elem pos (by omega) (Nat.le_refl _) hA ?_ hC
        intro i a hi hpi ha
        exfalso
        have := get?_some_lt ha
        have := (heapParent_eq_iff hi).mp hpi
        omega

theorem heapPop_isHeap (data : List Agent) (a : Agent) (d' : List Agent)
    (hh : IsHeap data) (h : heapPop data = some (a, d')) : IsHeap d' := by
  unfold heapPop at h
  rcases hlast : data.getLast? with _ | last
  · rw [hlast] at h
    exact absurd h (by simp)
  · rw [hlast] at h
    have hdec := eq_dropLast_append data last hlast
    rcases hroot : data.dropLast.get? 0 with _ | root
    · simp only [hroot, Option.some.injEq, Prod.mk.injEq] at h
      obtain ⟨ha, hd⟩ := h
      subst hd
      intro i x y hi hx hy
      simp at hx
    · simp only [hroot, Option.some.injEq, Prod.mk.injEq] at h
      obtain ⟨ha, hd⟩ := h
      subst hd
      have h0 : 0 < data.dropLast.length := get?_some_lt hroot
      refine siftDownGo_isHeap _ data.dropLast last 0 data.dropLast.length rfl h0
        (by omega) ?_ ?_
      · intro i x y hi hine hpne hx hy
        have hia : i < data.dropLast.length := get?_some_lt hx
        have hpa : heapParent i < data.dropLast.length := by
          have := heapParent_lt hi
          omega
        have e1 : data.get? i = some x := by
          conv_lhs => rw [hdec]
          rw [List.get?_append hia]
          exact hx
        have e2 : data.get? (heapParent i) = some y := by
          conv_lhs => rw [hdec]
          rw [List.get?_append hpa]
          exact hy
        exact hh i x y hi e1 e2
      · intro b hgp
        omega

theorem isHeap_le_root (l : List Agent) (hh : IsHeap l) (r : Agent) (hr : l.get? 0 = some r) :
    ∀ i a, l.get? i = some a → agentLe a r = true := by
  intro i
  induction i using Nat.strong_induction_on with
  | _ i ih =>
    intro a ha
    rcases Nat.eq_zero_or_pos i with h0 | h0
    · subst h0
      rw [hr] at ha
      injection ha with ha
      subst ha
      exact agentLe_refl r
    · have hp : heapParent i < i := heapParent_lt h0
      have hil : i < l.length := get?_some_lt ha
      rcases hb : l.get? (heapParent i) with _ | b
      · rw [List.get?_eq_none] at hb
        omega
      · exact agentLe_trans (hh i a b h0 ha hb) (ih (heapParent i) hp b hb)

theorem reachable_isHeap (d : List Agent) (hd : ReachableHeap d) : IsHeap d := by
  induction hd with
  | empty => intro i a b hi ha hb; simp at ha
  | push d x hdr ih => exact heapPush_isHeap d x ih
  | pop d d' a hdr hpop ih => exact heapPop_isHeap d a d' ih hpop

theorem heapPop_root (data : List Agent) (a : Agent) (d' : List Agent)
    (h : heapPop data = some (a, d')) : data.get? 0 = some a := by
  unfold heapPop at h
  rcases hlast : data.getLast? with _ | last
  · rw [hlast] at h
    exact absurd h (by simp)
  · rw [hlast] at h
    have hdec := eq_dropLast_append data last hlast
    rcases hroot : data.dropLast.get? 0 with _ | root
    · simp only [hroot, Option.some.injEq, Prod.mk.injEq] at h
      obtain ⟨ha, hd⟩ := h
      subst ha
      have hnil : data.dropLast = [] := by
        rw [List.get?_eq_none] at hroot
        exact List.eq_nil_of_length_eq_zero (by omega)
      rw [hdec, hnil]
      rfl
    · simp only [hroot, Option.some.injEq, Prod.mk.injEq] at h
      obtain ⟨ha, hd⟩ := h
      subst ha
      have h0 : 0 < data.dropLast.length := get?_some_lt hroot
      conv_lhs => rw [hdec]
      rw [List.get?_append h0]
      exact hroot

/-- C8: on every frontier state reachable during a search, popping returns
a candidate whose `priority_points` (steps-so-far plus heuristic) is
minimal among all candidates in the frontier — the `BinaryHeap` is a
max-heap, but the reversed `Ord` on `Agent` makes it lowest-cost-first. -/
theorem claim_C8 (d : List Agent) (hd : ReachableHeap d) (a : Agent) (d' : List Agent)
    (hpop : heapPop d = some (a, d')) :
    ∀ b ∈ d, a.priority_points ≤ b.priority_points := by
  intro b hb
  have hh : IsHeap d := reachable_isHeap d hd
  have hr : d.get? 0 = some a := heapPop_root d a d' hpop
  obtain ⟨i, hi⟩ := List.get?_of_mem hb
  have := isHeap_le_root d hh a hr i b hi
  simpa [agentLe] using this

theorem claim_C8_witness :
    heapPop (heapPush (heapPush [] ⟨⟨0, 0⟩, 0, 5⟩) ⟨⟨1, 0⟩, 1, 3⟩) =
      some (⟨⟨1, 0⟩, 1, 3⟩, [⟨⟨0, 0⟩, 0, 5⟩]) ∧
    (3 : Nat) ≤ 5 :=
  ⟨by decide,
    claim_C8 (heapPush (heapPush [] ⟨⟨0, 0⟩, 0, 5⟩) ⟨⟨1, 0⟩, 1, 3⟩)
      (ReachableHeap.push _ _ (ReachableHeap.push _ _ ReachableHeap.empty))
      ⟨⟨1, 0⟩, 1, 3⟩ [⟨⟨0, 0⟩, 0, 5⟩] (by decide)
      ⟨⟨0, 0⟩, 0, 5⟩ (by decide)⟩

/-- C5 (amended to grids with both dimensions at least 2): neighbor
generation returns exactly the orthogonally adjacent in-bounds coordinates,
without duplicates; on each axis, index 0 offers only the `+1` neighbor,
the maximum index offers only the `-1` neighbor, and interior indices offer
both, so the count is 2 at a corner, 3 on an edge, 4 in the interior, and
always between 2 and 4. -/
theorem claim_C5 (maze : Maze) (w h : Nat) (a : Agent)
    (hg : GoodMaze maze w h) (hw : 2 ≤ w) (hh : 2 ≤ h)
    (hx : a.coordination.x < w) (hy : a.coordination.y < h) :
    ∃ ns, a.neighbors_in maze = some ns ∧
      (∀ c, c ∈ ns ↔ (Adjacent a.coordination c ∧ inBounds maze c = true)) ∧
      ns.Nodup ∧
      ns.length = (if a.coordination.x = 0 ∨ a.coordination.x = w - 1 then 1 else 2) +
        (if a.coordination.y = 0 ∨ a.coordination.y = h - 1 then 1 else 2) ∧
      2 ≤ ns.length ∧ ns.length ≤ 4 :=
  neighbors_spec maze w h a hg hw hh hx hy

theorem claim_C5_witness :
    GoodMaze openMaze3x3 3 3 ∧
    (∃ ns, Agent.neighbors_in ⟨⟨1, 1⟩, 0, 0⟩ openMaze3x3 = some ns ∧
      (∀ c, c ∈ ns ↔ (Adjacent ⟨1, 1⟩ c ∧ inBounds openMaze3x3 c = true)) ∧
      ns.Nodup ∧
      ns.length = (if (1 : Nat) = 0 ∨ (1 : Nat) = 3 - 1 then 1 else 2) +
        (if (1 : Nat) = 0 ∨ (1 : Nat) = 3 - 1 then 1 else 2) ∧
      2 ≤ ns.length ∧ ns.length ≤ 4) :=
  ⟨⟨by decide, by decide⟩,
    claim_C5 openMaze3x3 3 3 ⟨⟨1, 1⟩, 0, 0⟩ ⟨by decide, by decide⟩
      (by decide) (by decide) (by decide) (by decide)⟩

theorem isOpen_inBounds {maze : Maze} {c : Coordination} (h : isOpen maze c) :
    inBounds maze c = true := by
  unfold isOpen mazeTile? at h
  unfold inBounds
  rcases hrow : maze.get? c.y with _ | row
  · rw [hrow] at h
    exact Option.noConfusion h
  · rw [hrow] at h
    change row.get? c.x = some Tile.Path at h
    simp only [decide_eq_true_eq]
    exact get?_some_lt h

theorem is_movable_of_inBounds {maze : Maze} {c : Coordination}
    (h : inBounds maze c = true) :
    ∃ bl, c.is_movable_in maze = some bl ∧ (bl = true ↔ isOpen maze c) := by
  unfold inBounds at h
  rcases hrow : maze.get? c.y with _ | row
  · rw [hrow] at h
    exact Bool.noConfusion h
  · rw [hrow] at h
    simp only [decide_eq_true_eq] at h
    rcases ht : row.get? c.x with _ | t
    · rw [List.get?_eq_none] at ht
      omega
    · have hmt : mazeTile? maze c = some t := by
        unfold mazeTile?
        rw [hrow]
        exact ht
      unfold Coordination.is_movable_in isOpen
      rw [hmt]
      cases t
      · exact ⟨false, rfl, by simp⟩
      · exact ⟨true, rfl, by simp⟩

theorem mem_exploredInsert_self (s : ExploredSet) (c : Coordination) :
    c ∈ exploredInsert s c := by
  unfold exploredInsert
  split_ifs with h
  · exact h
  · exact List.mem_cons_self c s

theorem mem_exploredInsert_iff (s : ExploredSet) (c x : Coordination) :
    x ∈ exploredInsert s c ↔ x = c ∨ x ∈ s := by
  unfold exploredInsert
  split_ifs with h
  · constructor
    · exact fun hx => Or.inr hx
    · rintro (rfl | hx)
      · exact h
      · exact hx
  · exact List.mem_cons

theorem exploredInsert_ne_nil (s : ExploredSet) (c : Coordination) :
    exploredInsert s c ≠ [] := by
  intro he
  have := mem_exploredInsert_self s c
  rw [he] at this
  exact absurd this (List.not_mem_nil c)

theorem pmFind_insert (pm : ParentMap) (k v k' : Coordination) :
    pmFind (pmInsert pm k v) k' = if k' = k then some v else pmFind pm k' := rfl

theorem pmFind_ne_none_insert {pm : ParentMap} {k : Coordination}
    (h : pmFind pm k ≠ none) (k' v' : Coordination) :
    pmFind (pmInsert pm k' v') k ≠ none := by
  rw [pmFind_insert]
  split_ifs with he
  · exact Option.noConfusion
  · exact h

theorem heapPop_eq_none {d : List Agent} (h : heapPop d = none) : d = [] := by
  unfold heapPop at h
  rcases hlast : d.getLast? with _ | last
  · exact List.getLast?_eq_none.mp hlast
  · rw [hlast] at h
    rcases hroot : d.dropLast.get? 0 with _ | root
    · simp only [hroot] at h
      exact Option.noConfusion h
    · simp only [hroot] at h
      exact Option.noConfusion h

theorem mazeCells_eq (maze : Maze) (w h : Nat) (hg : GoodMaze maze w h) :
    mazeCells maze = h * w := by
  obtain ⟨hlen, hrows⟩ := hg
  unfold mazeCells
  have hrep : maze.map List.length = List.replicate h w := by
    refine List.eq_replicate.mpr ⟨by simp [hlen], ?_⟩
    intro n hn
    obtain ⟨row, hrow, hres⟩ := List.mem_map.mp hn
    rw [← hres]
    exact hrows row hrow
  rw [hrep, List.sum_replicate, smul_eq_mul]

theorem encode_inj {w x1 y1 x2 y2 : Nat} (h1 : x1 < w) (h2 : x2 < w)
    (he : y1 * w + x1 = y2 * w + x2) : x1 = x2 ∧ y1 = y2 := by
  have hw : 0 < w := by omega
  have e1 : (y1 * w + x1) % w = x1 := by
    rw [Nat.add_comm, Nat.add_mul_mod_self_right, Nat.mod_eq_of_lt h1]
  have e2 : (y2 * w + x2) % w = x2 := by
    rw [Nat.add_comm, Nat.add_mul_mod_self_right, Nat.mod_eq_of_lt h2]
  have e3 : (y1 * w + x1) / w = y1 := by
    rw [Nat.add_comm, Nat.add_mul_div_right _ _ hw, Nat.div_eq_of_lt h1]
    omega
  have e4 : (y2 * w + x2) / w = y2 := by
    rw [Nat.add_comm, Nat.add_mul_div_right _ _ hw, Nat.div_eq_of_lt h2]
    omega
  constructor
  · rw [← e1, ← e2, he]
  · rw [← e3, ← e4, he]

theorem nodup_inBounds_length (maze : Maze) (w h : Nat) (hg : GoodMaze maze w h)
    (C : List Coordination) (hnd : C.Nodup) (hb : ∀ c ∈ C, inBounds maze c = true) :
    C.length ≤ w * h := by
  classical
  have hmap : (C.map (fun c => c.y * w + c.x)).Nodup := by
    refine List.Nodup.map_on ?_ hnd
    intro x hx y hy hxy
    have hbx := (inBounds_iff maze w h hg x).mp (hb x hx)
    have hby := (inBounds_iff maze w h hg y).mp (hb y hy)
    obtain ⟨he1, he2⟩ := encode_inj hbx.1 hby.1 hxy
    cases x
    cases y
    simp only at he1 he2
    simp [he1, he2]
  have hsub : (C.map (fun c => c.y * w + c.x)).toFinset ⊆ Finset.range (w * h) := by
    intro n hn
    rw [List.mem_toFinset] at hn
    obtain ⟨c, hc, hres⟩ := List.mem_map.mp hn
    have hbc := (inBounds_iff maze w h hg c).mp (hb c hc)
    rw [Finset.mem_range, ← hres]
    calc c.y * w + c.x < c.y * w + w := by omega
      _ = (c.y + 1) * w := by ring
      _ ≤ h * w := Nat.mul_le_mul_right w (by omega)
      _ = w * h := Nat.mul_comm h w
  have hcard := Finset.card_le_card hsub
  rw [Finset.card_range, List.toFinset_card_of_nodup hmap, List.length_map] at hcard
  exact hcard

theorem inBounds_mem_of_full (maze : Maze) (w h : Nat) (hg : GoodMaze maze w h)
    (C : List Coordination) (hnd : C.Nodup) (hb : ∀ c ∈ C, inBounds maze c = true)
    (hlen : w * h ≤ C.length) :
    ∀ c, inBounds maze c = true → c ∈ C := by
  intro c hc
  by_contra hcmem
  have hnd' : (C ++ [c]).Nodup := by
    rw [List.nodup_append]
    refine ⟨hnd, List.nodup_singleton c, ?_⟩
    intro x hx hx'
    rw [List.mem_singleton] at hx'
    subst hx'
    exact hcmem hx
  have hb' : ∀ x ∈ C ++ [c], inBounds maze x = true := by
    intro x hx
    rcases List.mem_append.mp hx with h1 | h1
    · exact hb x h1
    · rw [List.mem_singleton] at h1
      subst h1
      exact hc
  have := nodup_inBounds_length maze w h hg (C ++ [c]) hnd' hb'
  simp only [List.length_append, List.length_singleton] at this
  omega

theorem sum_map_const_of {β : Type} (l : List β) (f : β → Nat) (K : Nat)
    (h : ∀ b ∈ l, f b = K) : (l.map f).sum = l.length * K := by
  induction l with
  | nil => simp
  | cons x t ih =>
    simp only [List.map_cons, List.sum_cons, List.length_cons]
    rw [h x (by simp), ih (fun b hb => h b (by simp [hb]))]
    ring

theorem agentChain_mono (maze : Maze) {e1 e2 : ExploredSet}
    (hsub : ∀ c ∈ e1, c ∈ e2) (a : Agent) (h : AgentChain maze e1 a) :
    AgentChain maze e2 a := by
  obtain ⟨C, h1, h2, h3, h4, h5, h6⟩ := h
  exact ⟨C, h1, h2, h3, fun c hc => hsub c (h4 c hc), h5, h6⟩

theorem agentChain_bounds {maze : Maze} {expl : ExploredSet} {a : Agent}
    (h : AgentChain maze expl a) : inBounds maze a.coordination = true := by
  obtain ⟨C, h1, h2, h3, h4, h5, h6⟩ := h
  refine h5 a.coordination ?_
  have := eq_dropLast_append C a.coordination h3
  rw [this]
  simp

theorem pmInv_mono (maze : Maze) (start : Coordination) {e1 e2 : ExploredSet}
    {pm : ParentMap} (hsub : ∀ c ∈ e1, c ∈ e2) (h : PmInv maze start e1 pm) :
    PmInv maze start e2 pm :=
  ⟨fun k v hkv => hsub _ (h.values_explored k v hkv), h.keys_adjacent, h.keys_open,
    h.start_none, h.rank⟩

theorem pmInv_insert (maze : Maze) (start : Coordination) (explored : ExploredSet)
    (pm : ParentMap) (k v : Coordination)
    (hpm : PmInv maze start explored pm)
    (hv : v ∈ explored) (hk : k ∉ explored) (hs : start ∈ explored)
    (hadj : Adjacent v k) (hopen : isOpen maze k) :
    PmInv maze start explored (pmInsert pm k v) := by
  obtain ⟨r, hrb, hrlt⟩ := hpm.rank
  refine ⟨?_, ?_, ?_, ?_, ?_⟩
  · intro k' v' hkv
    rw [pmFind_insert] at hkv
    split_ifs at hkv with he
    · injection hkv with hkv
      subst hkv
      exact hv
    · exact hpm.values_explored k' v' hkv
  · intro k' v' hkv
    rw [pmFind_insert] at hkv
    split_ifs at hkv with he
    · injection hkv with hkv
      subst hkv
      subst he
      exact hadj
    · exact hpm.keys_adjacent k' v' hkv
  · intro k' v' hkv
    rw [pmFind_insert] at hkv
    split_ifs at hkv with he
    · subst he
      exact hopen
    · exact hpm.keys_open k' v' hkv
  · rw [pmFind_insert]
    split_ifs with he
    · exact absurd (he ▸ hs) hk
    · exact hpm.start_none
  · classical
    refine ⟨fun c => if c = k then r v + 1 else r c, ?_, ?_⟩
    · intro c
      unfold pmInsert
      simp only [List.length_cons]
      split_ifs
      · have := hrb v
        omega
      · have := hrb c
        omega
    · intro k' v' hkv
      rw [pmFind_insert] at hkv
      split_ifs at hkv with he
      · injection hkv with hkv
        have hne : v ≠ k := fun hc => hk (hc ▸ hv)
        rw [← hkv, he]
        simp only [if_neg hne, if_pos rfl]
        split_ifs <;> omega
      · have hlt := hrlt k' v' hkv
        have hv' : v' ∈ explored := hpm.values_explored k' v' hkv
        have hne1 : v' ≠ k := by
          intro hc
          rw [hc] at hv'
          exact hk hv'
        simp only [hne1, if_false, he, if_false]
        exact hlt

theorem adjacent_symm {a b : Coordination} (h : Adjacent a b) : Adjacent b a := by
  rcases h with ⟨h1, h2⟩ | ⟨h1, h2⟩
  · exact Or.inl ⟨h1.symm, h2.symm⟩
  · exact Or.inr ⟨h1.symm, h2.symm⟩

theorem adjacent_manhattan {a b : Coordination} (h : Adjacent a b) : manhattan a b = 1 := by
  rcases h with ⟨h1, h2⟩ | ⟨h1, h2⟩ <;> unfold manhattan Nat.dist <;> omega

theorem manhattan_triangle (a b c : Coordination) :
    manhattan a c ≤ manhattan a b + manhattan b c := by
  unfold manhattan Nat.dist
  omega

theorem manhattan_le_chain (l : List Coordination) (s e : Coordination)
    (hh : l.head? = some s) (hl : l.getLast? = some e) (hc : List.Chain' Adjacent l) :
    manhattan s e ≤ l.length - 1 := by
  induction l generalizing s with
  | nil => exact Option.noConfusion hh
  | cons x t ih =>
    rcases t with _ | ⟨y, t'⟩
    · simp only [List.head?_cons, Option.some.injEq] at hh
      simp only [List.getLast?_singleton, Option.some.injEq] at hl
      subst hh
      subst hl
      unfold manhattan
      simp [Nat.dist_self]
    · simp only [List.head?_cons, Option.some.injEq] at hh
      subst hh
      rw [List.getLast?_cons_cons] at hl
      rw [List.chain'_cons] at hc
      have hyb := ih y rfl hl hc.2
      have htr := manhattan_triangle x y e
      have had := adjacent_manhattan hc.1
      simp only [List.length_cons] at hyb ⊢
      omega

theorem phi_perm (maze : Maze) {l1 l2 : List Agent} (h : l1.Perm l2) :
    phi maze l1 = phi maze l2 :=
  (h.map _).sum_eq

theorem phi_cons (maze : Maze) (a : Agent) (l : List Agent) :
    phi maze (a :: l) = 5 ^ (mazeCells maze - a.steps - 1) + phi maze l := by
  simp [phi]

theorem phi_append (maze : Maze) (l1 l2 : List Agent) :
    phi maze (l1 ++ l2) = phi maze l1 + phi maze l2 := by
  simp [phi]

theorem agentChain_extend {maze : Maze} {explored : ExploredSet} {a b : Agent}
    (h : AgentChain maze explored a) (ha : a.coordination ∈ explored)
    (hnb : b.coordination ∉ explored) (hbnd : inBounds maze b.coordination = true)
    (hst : b.steps = a.steps + 1) : AgentChain maze explored b := by
  obtain ⟨C, hne, hnd, hlast, hdrop, hbds, hlen⟩ := h
  have hCsub : ∀ c ∈ C, c ∈ explored := by
    intro c hc
    rw [eq_dropLast_append C a.coordination hlast] at hc
    rcases List.mem_append.mp hc with h1 | h1
    · exact hdrop c h1
    · rw [List.mem_singleton] at h1
      subst h1
      exact ha
  refine ⟨C ++ [b.coordination], by simp, ?_, ?_, ?_, ?_, ?_⟩
  · rw [List.nodup_append]
    refine ⟨hnd, List.nodup_singleton _, ?_⟩
    intro c hc hc'
    rw [List.mem_singleton] at hc'
    subst hc'
    exact hnb (hCsub _ hc)
  · simp
  · intro c hc
    rw [List.dropLast_concat] at hc
    exact hCsub c hc
  · intro c hc
    rcases List.mem_append.mp hc with h1 | h1
    · exact hbds c h1
    · rw [List.mem_singleton] at h1
      subst h1
      exact hbnd
  · simp only [List.length_append, List.length_singleton]
    omega

theorem expandNeighbors_spec (maze : Maze) (start ending : Coordination) (a : Agent)
    (nbs : List Coordination) (explored : ExploredSet) :
    ∀ (fr : List Agent) (pm : ParentMap),
    (∀ nb ∈ nbs, inBounds maze nb = true) →
    (∀ nb ∈ nbs, Adjacent a.coordination nb) →
    a.coordination ∈ explored → start ∈ explored →
    PmInv maze start explored pm →
    ∃ fr' pm' pushed, expandNeighbors maze ending a nbs explored fr pm = some (fr', pm') ∧
      fr'.Perm (fr ++ pushed) ∧
      (∀ b ∈ pushed, b.coordination ∈ nbs ∧ b.coordination ∉ explored ∧
        isOpen maze b.coordination ∧ b.steps = a.steps + 1 ∧
        pmFind pm' b.coordination = some a.coordination) ∧
      (∀ nb ∈ nbs, isOpen maze nb → nb ∉ explored → ∃ b ∈ pushed, b.coordination = nb) ∧
      (∀ c, pmFind pm' c = pmFind pm c ∨ pmFind pm' c = some a.coordination) ∧
      PmInv maze start explored pm' ∧
      pushed.length ≤ nbs.length := by
  induction nbs with
  | nil =>
    intro fr pm _ _ _ _ hpm
    exact ⟨fr, pm, [], rfl, by simp, by simp, by simp, fun c => Or.inl rfl, hpm, by simp⟩
  | cons nb rest ih =>
    intro fr pm hb hadj ha hs hpm
    have hbr : ∀ x ∈ rest, inBounds maze x = true :=
      fun x hx => hb x (List.mem_cons_of_mem _ hx)
    have hadjr : ∀ x ∈ rest, Adjacent a.coordination x :=
      fun x hx => hadj x (List.mem_cons_of_mem _ hx)
    by_cases hmem : nb ∈ explored
    · have heq : expandNeighbors maze ending a (nb :: rest) explored fr pm =
          expandNeighbors maze ending a rest explored fr pm := by
        simp [expandNeighbors, hmem]
      obtain ⟨fr', pm', pushed, he, hperm, hpush, hcov, hstab, hpm', hlen⟩ :=
        ih fr pm hbr hadjr ha hs hpm
      refine ⟨fr', pm', pushed, heq ▸ he, hperm, ?_, ?_, hstab, hpm', ?_⟩
      · intro b hbp
        obtain ⟨h1, h2, h3, h4, h5⟩ := hpush b hbp
        exact ⟨List.mem_cons_of_mem _ h1, h2, h3, h4, h5⟩
      · intro x hx hxo hxe
        rcases List.mem_cons.mp hx with rfl | hx'
        · exact absurd hmem hxe
        · exact hcov x hx' hxo hxe
      · simp only [List.length_cons]
        omega
    · obtain ⟨bl, hbl, hbli⟩ := is_movable_of_inBounds (hb nb (List.mem_cons_self nb rest))
      cases bl with
      | false =>
        have heq : expandNeighbors maze ending a (nb :: rest) explored fr pm =
            expandNeighbors maze ending a rest explored fr pm := by
          simp [expandNeighbors, hmem, hbl]
        obtain ⟨fr', pm', pushed, he, hperm, hpush, hcov, hstab, hpm', hlen⟩ :=
          ih fr pm hbr hadjr ha hs hpm
        refine ⟨fr', pm', pushed, heq ▸ he, hperm, ?_, ?_, hstab, hpm', ?_⟩
        · intro b hbp
          obtain ⟨h1, h2, h3, h4, h5⟩ := hpush b hbp
          exact ⟨List.mem_cons_of_mem _ h1, h2, h3, h4, h5⟩
        · intro x hx hxo hxe
          rcases List.mem_cons.mp hx with rfl | hx'
          · exact absurd (hbli.mpr hxo) (by simp)
          · exact hcov x hx' hxo hxe
        · simp only [List.length_cons]
          omega
      | true =>
        have hopen : isOpen maze nb := hbli.mp rfl
        have heq : expandNeighbors maze ending a (nb :: rest) explored fr pm =
            expandNeighbors maze ending a rest explored
              (heapPush fr ⟨nb, a.steps + 1, a.steps + 1 + ManhattanDistance.distance nb ending⟩)
              (pmInsert pm nb a.coordination) := by
          simp [expandNeighbors, hmem, hbl]
        have hpm2 : PmInv maze start explored (pmInsert pm nb a.coordination) :=
          pmInv_insert maze start explored pm nb a.coordination hpm ha hmem hs
            (hadj nb (List.mem_cons_self nb rest)) hopen
        obtain ⟨fr', pm', pushed, he, hperm, hpush, hcov, hstab, hpm', hlen⟩ :=
          ih (heapPush fr ⟨nb, a.steps + 1, a.steps + 1 + ManhattanDistance.distance nb ending⟩)
            (pmInsert pm nb a.coordination) hbr hadjr ha hs hpm2
        refine ⟨fr', pm',
          ⟨nb, a.steps + 1, a.steps + 1 + ManhattanDistance.distance nb ending⟩ :: pushed,
          heq ▸ he, ?_, ?_, ?_, ?_, hpm', ?_⟩
        · refine hperm.trans ?_
          refine (List.Perm.append_right pushed (heapPush_perm fr _)).trans ?_
          exact List.perm_middle.symm
        · intro b hbp
          rcases List.mem_cons.mp hbp with rfl | hbp'
          · refine ⟨List.mem_cons_self _ _, hmem, hopen, rfl, ?_⟩
            rcases hstab nb with h | h
            · rw [h, pmFind_insert, if_pos rfl]
            · exact h
          · obtain ⟨h1, h2, h3, h4, h5⟩ := hpush b hbp'
            exact ⟨List.mem_cons_of_mem _ h1, h2, h3, h4, h5⟩
        · intro x hx hxo hxe
          rcases List.mem_cons.mp hx with rfl | hx'
          · exact ⟨_, List.mem_cons_self _ _, rfl⟩
          · obtain ⟨b, hbp, hbc⟩ := hcov x hx' hxo hxe
            exact ⟨b, List.mem_cons_of_mem _ hbp, hbc⟩
        · intro c
          rcases hstab c with h | h
          · rw [h, pmFind_insert]
            split_ifs with hc
            · exact Or.inr rfl
            · exact Or.inl rfl
          · exact Or.inr h
        · simp only [List.length_cons]
          omega

theorem searchLoop_pop_none {maze : Maze} {ending : Coordination} {fuel : Nat}
    {st : SearchState} (h : heapPop st.frontier = none) :
    searchLoop maze ending (fuel + 1) st = .exhausted st := by
  unfold searchLoop
  rw [h]

theorem searchLoop_pop_goal {maze : Maze} {ending : Coordination} {fuel : Nat}
    {st : SearchState} {a : Agent} {fr' : List Agent}
    (h : heapPop st.frontier = some (a, fr')) (hg : ending = a.coordination) :
    searchLoop maze ending (fuel + 1) st =
      .found a ⟨fr', exploredInsert st.explored a.coordination, st.parent_map⟩ := by
  unfold searchLoop
  rw [h]
  simp [hg]

theorem searchLoop_pop_step {maze : Maze} {ending : Coordination} {fuel : Nat}
    {st : SearchState} {a : Agent} {fr' : List Agent} {nbs : List Coordination}
    {fr'' : List Agent} {pm' : ParentMap}
    (h : heapPop st.frontier = some (a, fr')) (hg : ¬ ending = a.coordination)
    (hn : a.neighbors_in maze = some nbs)
    (he : expandNeighbors maze ending a nbs (exploredInsert st.explored a.coordination)
      fr' st.parent_map = some (fr'', pm')) :
    searchLoop maze ending (fuel + 1) st =
      searchLoop maze ending fuel ⟨fr'', exploredInsert st.explored a.coordination, pm'⟩ := by
  conv_lhs => unfold searchLoop
  rw [h]
  simp [hg, hn, he]

theorem searchLoop_pop_fault {maze : Maze} {ending : Coordination} {fuel : Nat}
    {st : SearchState} {a : Agent} {fr' : List Agent} {nbs : List Coordination}
    (h : heapPop st.frontier = some (a, fr')) (hg : ¬ ending = a.coordination)
    (hn : a.neighbors_in maze = some nbs)
    (he : expandNeighbors maze ending a nbs (exploredInsert st.explored a.coordination)
      fr' st.parent_map = none) :
    searchLoop maze ending (fuel + 1) st = .fault := by
  unfold searchLoop
  rw [h]
  simp [hg, hn, he]

theorem searchLoop_master (maze : Maze) (w h : Nat) (start ending : Coordination)
    (hg : GoodMaze maze w h) (hw : 2 ≤ w) (hh : 2 ≤ h) :
    ∀ (fuel : Nat) (st : SearchState),
    LoopInv maze start ending st →
    phi maze st.frontier < fuel →
    (∃ a st', searchLoop maze ending fuel st = .found a st' ∧
       ending = a.coordination ∧ FoundInv maze start ending st') ∨
    (∃ st', searchLoop maze ending fuel st = .exhausted st' ∧
       ExhaustInv maze start ending st') := by
  intro fuel
  induction fuel with
  | zero =>
    intro st _ hf
    omega
  | succ fuel ih =>
    intro st hinv hf
    rcases hpop : heapPop st.frontier with _ | ⟨a, fr'⟩
    · have hfr : st.frontier = [] := heapPop_eq_none hpop
      right
      refine ⟨st, searchLoop_pop_none hpop, hinv.progress hfr, hinv.ending_unexplored, ?_⟩
      intro c hc nb hadj hbnd hopen
      rcases hinv.closure c hc nb hadj hbnd hopen with h1 | ⟨ag, hag, -⟩
      · exact h1
      · rw [hfr] at hag
        exact absurd hag (List.not_mem_nil _)
    · have hperm := heapPop_perm st.frontier a fr' hpop
      have hamem : a ∈ st.frontier := hperm.mem_iff.mp (List.mem_cons_self a fr')
      have hfr'sub : ∀ b ∈ fr', b ∈ st.frontier :=
        fun b hb => hperm.mem_iff.mp (List.mem_cons_of_mem a hb)
      have hchain : AgentChain maze st.explored a := hinv.frontier_chains a hamem
      have habnd : inBounds maze a.coordination = true := agentChain_bounds hchain
      have hsub : ∀ c ∈ st.explored, c ∈ exploredInsert st.explored a.coordination :=
        fun c hc => (mem_exploredInsert_iff _ _ _).mpr (Or.inr hc)
      have hamem' : a.coordination ∈ exploredInsert st.explored a.coordination :=
        mem_exploredInsert_self _ _
      have hstart' : start ∈ exploredInsert st.explored a.coordination := by
        by_cases heq : st.explored = []
        · obtain ⟨-, hfr0⟩ := hinv.start_case heq
          rw [← hfr0 a hamem]
          exact hamem'
        · exact hsub start (hinv.start_explored heq)
      have hekeys' : ∀ c ∈ exploredInsert st.explored a.coordination, c ≠ start →
          pmFind st.parent_map c ≠ none := by
        intro c hc hcs
        rcases (mem_exploredInsert_iff _ _ _).mp hc with rfl | hcold
        · rcases hinv.frontier_keys a hamem with h1 | h1
          · exact absurd h1 hcs
          · exact h1
        · exact hinv.explored_keys c hcold hcs
      have heopen' : ∀ c ∈ exploredInsert st.explored a.coordination,
          isOpen maze c ∨ c = start := by
        intro c hc
        rcases (mem_exploredInsert_iff _ _ _).mp hc with rfl | hcold
        · exact hinv.frontier_open a hamem
        · exact hinv.explored_open c hcold
      by_cases hgoal : ending = a.coordination
      · left
        refine ⟨a, _, searchLoop_pop_goal hpop hgoal, hgoal, ?_⟩
        refine ⟨pmInv_mono maze start hsub hinv.pm_inv, ?_, hstart', hekeys', heopen'⟩
        rw [hgoal]
        exact hamem'
      · have hx := (inBounds_iff maze w h hg _).mp habnd
        obtain ⟨nbs, hnbs, hchar, hnd, -, -, hlen4⟩ :=
          neighbors_spec maze w h a hg hw hh hx.1 hx.2
        have hpmmono : PmInv maze start (exploredInsert st.explored a.coordination)
            st.parent_map := pmInv_mono maze start hsub hinv.pm_inv
        have hbnds : ∀ nb ∈ nbs, inBounds maze nb = true :=
          fun nb hnb => ((hchar nb).mp hnb).2
        have hadjs : ∀ nb ∈ nbs, Adjacent a.coordination nb :=
          fun nb hnb => ((hchar nb).mp hnb).1
        obtain ⟨fr'', pm', pushed, hexpand, hfperm, hpush, hcov, hstab, hpminv, hplen⟩ :=
          expandNeighbors_spec maze start ending a nbs
            (exploredInsert st.explored a.coordination) fr' st.parent_map
            hbnds hadjs hamem' hstart' hpmmono
        have hstep : searchLoop maze ending (fuel + 1) st = searchLoop maze ending fuel
            ⟨fr'', exploredInsert st.explored a.coordination, pm'⟩ :=
          searchLoop_pop_step hpop hgoal hnbs hexpand
        have hfr''mem : ∀ b ∈ fr'', b ∈ fr' ∨ b ∈ pushed := by
          intro b hb
          exact List.mem_append.mp (hfperm.mem_iff.mp hb)
        have hchain' : AgentChain maze (exploredInsert st.explored a.coordination) a :=
          agentChain_mono maze hsub a hchain
        have hinv' : LoopInv maze start ending
            ⟨fr'', exploredInsert st.explored a.coordination, pm'⟩ := by
          refine ⟨?_, ?_, ?_, ?_, ?_, ?_, ?_, ?_, ?_, ?_, ?_, ?_⟩
          · intro b hb
            rcases hfr''mem b hb with h1 | h1
            · exact agentChain_mono maze hsub b (hinv.frontier_chains b (hfr'sub b h1))
            · obtain ⟨hin, hnotex, -, hst, -⟩ := hpush b h1
              exact agentChain_extend hchain' hamem' hnotex (hbnds _ hin) hst
          · intro b hb
            rcases hfr''mem b hb with h1 | h1
            · rcases hinv.frontier_keys b (hfr'sub b h1) with h2 | h2
              · exact Or.inl h2
              · refine Or.inr ?_
                rcases hstab b.coordination with h3 | h3
                · rw [h3]
                  exact h2
                · rw [h3]
                  exact Option.noConfusion
            · obtain ⟨-, -, -, -, h5⟩ := hpush b h1
              refine Or.inr ?_
              rw [h5]
              exact Option.noConfusion
          · intro c hc
            rcases (mem_exploredInsert_iff _ _ _).mp hc with rfl | hcold
            · exact habnd
            · exact hinv.explored_bounds c hcold
          · intro c hc hcs
            have h1 := hekeys' c hc hcs
            rcases hstab c with h2 | h2
            · rw [h2]
              exact h1
            · rw [h2]
              exact Option.noConfusion
          · intro _
            exact hstart'
          · intro hc
            exact absurd hc (exploredInsert_ne_nil _ _)
          · intro _
            exact hstart'
          · intro hc
            rcases (mem_exploredInsert_iff _ _ _).mp hc with h1 | h1
            · exact hgoal h1
            · exact hinv.ending_unexplored h1
          · exact hpminv
          · intro c hc nb hadj hbnd hopen
            rcases (mem_exploredInsert_iff _ _ _).mp hc with rfl | hcold
            · have hnbmem : nb ∈ nbs := (hchar nb).mpr ⟨hadj, hbnd⟩
              by_cases hnbex : nb ∈ exploredInsert st.explored a.coordination
              · exact Or.inl hnbex
              · obtain ⟨b, hbp, hbc⟩ := hcov nb hnbmem hopen hnbex
                refine Or.inr ⟨b, ?_, hbc⟩
                rw [hfperm.mem_iff]
                exact List.mem_append.mpr (Or.inr hbp)
            · rcases hinv.closure c hcold nb hadj hbnd hopen with h1 | ⟨ag, hag, hagc⟩
              · exact Or.inl (hsub nb h1)
              · rcases List.mem_cons.mp (hperm.mem_iff.mpr hag) with rfl | hagfr
                · refine Or.inl ?_
                  rw [← hagc]
                  exact hamem'
                · refine Or.inr ⟨ag, ?_, hagc⟩
                  rw [hfperm.mem_iff]
                  exact List.mem_append.mpr (Or.inl hagfr)
          · intro b hb
            rcases hfr''mem b hb with h1 | h1
            · exact hinv.frontier_open b (hfr'sub b h1)
            · obtain ⟨-, -, h3, -, -⟩ := hpush b h1
              exact Or.inl h3
          · exact heopen'
        have hphi : phi maze fr'' < phi maze st.frontier := by
          have hfr0 : phi maze st.frontier =
              5 ^ (mazeCells maze - a.steps - 1) + phi maze fr' := by
            rw [← phi_perm maze hperm, phi_cons]
          have hfr2 : phi maze fr'' = phi maze fr' + phi maze pushed := by
            rw [phi_perm maze hfperm, phi_append]
          by_cases hsmall : a.steps + 2 ≤ mazeCells maze
          · have hpu : phi maze pushed =
                pushed.length * 5 ^ (mazeCells maze - a.steps - 2) := by
              refine sum_map_const_of pushed _ _ ?_
              intro b hb
              obtain ⟨-, -, -, h4, -⟩ := hpush b hb
              rw [h4]
              congr 1
            have hE : 0 < 5 ^ (mazeCells maze - a.steps - 2) :=
              pow_pos (by norm_num) _
            have hexp : 5 ^ (mazeCells maze - a.steps - 1) =
                5 ^ (mazeCells maze - a.steps - 2) * 5 := by
              rw [← pow_succ]
              congr 1
              omega
            have hple : pushed.length ≤ 4 := le_trans hplen hlen4
            have hmul : pushed.length * 5 ^ (mazeCells maze - a.steps - 2) ≤
                4 * 5 ^ (mazeCells maze - a.steps - 2) :=
              Nat.mul_le_mul_right _ hple
            rw [hfr0, hfr2, hpu, hexp]
            omega
          · have hpempty : pushed = [] := by
              obtain ⟨C, -, hnd2, hlast2, hdrop2, hbds2, hlen2⟩ := hchain
              have hCle : C.length ≤ w * h :=
                nodup_inBounds_length maze w h hg C hnd2 hbds2
              have hNeq : mazeCells maze = h * w := mazeCells_eq maze w h hg
              have hfull : ∀ c, inBounds maze c = true → c ∈ C :=
                inBounds_mem_of_full maze w h hg C hnd2 hbds2
                  (by rw [Nat.mul_comm]; omega)
              have hCsub : ∀ c ∈ C, c ∈ exploredInsert st.explored a.coordination := by
                intro c hc
                rw [eq_dropLast_append C a.coordination hlast2] at hc
                rcases List.mem_append.mp hc with h1 | h1
                · exact hsub c (hdrop2 c h1)
                · rw [List.mem_singleton] at h1
                  subst h1
                  exact hamem'
              rcases hpc : pushed with _ | ⟨b, bs⟩
              · rfl
              · exfalso
                have hbp : b ∈ pushed := by
                  rw [hpc]
                  exact List.mem_cons_self b bs
                obtain ⟨h1, h2, -, -, -⟩ := hpush b hbp
                exact h2 (hCsub _ (hfull _ (hbnds _ h1)))
            have hE : 0 < 5 ^ (mazeCells maze - a.steps - 1) :=
              pow_pos (by norm_num) _
            rw [hfr0, hfr2, hpempty]
            simp only [phi, List.map_nil, List.sum_nil]
            omega
        rw [hstep]
        refine ih ⟨fr'', exploredInsert st.explored a.coordination, pm'⟩ hinv' ?_
        show phi maze fr'' < fuel
        omega

theorem reconstructGo_spec (pm : ParentMap) (r : Coordination → Nat)
    (hr : ∀ k v, pmFind pm k = some v → r v < r k) :
    ∀ (fuel : Nat) (cur : Coordination) (acc : List Coordination),
    r cur < fuel →
    ∃ tail, reconstructGo pm fuel acc cur = some (acc ++ tail) ∧
      List.Chain' (fun x y => pmFind pm x = some y) (cur :: tail) ∧
      (∃ L, (cur :: tail).getLast? = some L ∧ pmFind pm L = none) ∧
      ∀ c ∈ tail, ∃ k, pmFind pm k = some c := by
  intro fuel
  induction fuel with
  | zero =>
    intro cur acc hfuel
    omega
  | succ fuel ih =>
    intro cur acc hfuel
    rcases hcur : pmFind pm cur with _ | p
    · refine ⟨[], ?_, ?_, ⟨cur, rfl, hcur⟩, by simp⟩
      · unfold reconstructGo
        rw [hcur]
        simp
      · simp
    · have hlt : r p < fuel := by
        have := hr cur p hcur
        omega
      obtain ⟨tail, heq, hchain, hlast, hvals⟩ := ih p (acc ++ [p]) hlt
      refine ⟨p :: tail, ?_, ?_, ?_, ?_⟩
      · have hstep : reconstructGo pm (fuel + 1) acc cur =
            reconstructGo pm fuel (acc ++ [p]) p := by
          conv_lhs => unfold reconstructGo
          rw [hcur]
        rw [hstep, heq]
        simp
      · rw [List.chain'_cons]
        exact ⟨hcur, hchain⟩
      · obtain ⟨L, hL, hLn⟩ := hlast
        exact ⟨L, by rw [List.getLast?_cons_cons]; exact hL, hLn⟩
      · intro c hc
        rcases List.mem_cons.mp hc with rfl | hc'
        · exact ⟨cur, hcur⟩
        · exact hvals c hc'

theorem closed_reaches (maze : Maze) (E : ExploredSet)
    (hclosed : ∀ c ∈ E, ∀ nb : Coordination, Adjacent c nb → inBounds maze nb = true →
      isOpen maze nb → nb ∈ E) :
    ∀ l : List Coordination, List.Chain' Adjacent l → (∀ c ∈ l, isOpen maze c) →
    ∀ s, l.head? = some s → s ∈ E → ∀ c ∈ l, c ∈ E := by
  intro l
  induction l with
  | nil =>
    intro _ _ s _ _ c hc
    exact absurd hc (List.not_mem_nil c)
  | cons x t ih =>
    intro hchain hopen s hhead hsE c hc
    simp only [List.head?_cons, Option.some.injEq] at hhead
    subst hhead
    rcases t with _ | ⟨y, t'⟩
    · rw [List.mem_singleton] at hc
      subst hc
      exact hsE
    · rw [List.chain'_cons] at hchain
      have hyE : y ∈ E :=
        hclosed x hsE y hchain.1 (isOpen_inBounds (hopen y (by simp))) (hopen y (by simp))
      rcases List.mem_cons.mp hc with rfl | hc'
      · exact hsE
      · exact ih hchain.2 (fun d hd => hopen d (List.mem_cons_of_mem x hd)) y rfl hyE c hc'

theorem solution_eq_exhausted {maze : Maze} {s e : Coordination} {st' : SearchState}
    (h : searchLoop maze e (solveFuel maze)
      ⟨heapPush [] ⟨s, 0, ManhattanDistance.distance s e⟩, [], []⟩ = .exhausted st') :
    MazeSolver.solution ⟨maze, s, e⟩ = .noSolution := by
  simp only [MazeSolver.solution]
  rw [h]

theorem solution_eq_found {maze : Maze} {s e : Coordination} {a : Agent}
    {st' : SearchState} {acc : List Coordination}
    (h : searchLoop maze e (solveFuel maze)
      ⟨heapPush [] ⟨s, 0, ManhattanDistance.distance s e⟩, [], []⟩ = .found a st')
    (h2 : reconstructGo st'.parent_map (st'.parent_map.length + 1)
      [a.coordination] a.coordination = some acc) :
    MazeSolver.solution ⟨maze, s, e⟩ = .ok acc.reverse := by
  simp only [MazeSolver.solution]
  rw [h]
  simp only [h2]

theorem solution_eq_fault {maze : Maze} {s e : Coordination}
    (h : searchLoop maze e (solveFuel maze)
      ⟨heapPush [] ⟨s, 0, ManhattanDistance.distance s e⟩, [], []⟩ = .fault) :
    MazeSolver.solution ⟨maze, s, e⟩ = .fault := by
  simp only [MazeSolver.solution]
  rw [h]

theorem initial_loopInv (maze : Maze) (s e : Coordination) (pri : Nat)
    (hsb : inBounds maze s = true) :
    LoopInv maze s e ⟨[⟨s, 0, pri⟩], [], []⟩ := by
  refine ⟨?_, ?_, ?_, ?_, ?_, ?_, ?_, ?_, ?_, ?_, ?_, ?_⟩
  · intro b hb
    rw [List.mem_singleton] at hb
    subst hb
    exact ⟨[s], by simp, List.nodup_singleton s, by simp, by simp, by
      intro c hc
      rw [List.mem_singleton] at hc
      subst hc
      exact hsb, by simp⟩
  · intro b hb
    rw [List.mem_singleton] at hb
    subst hb
    exact Or.inl rfl
  · intro c hc
    exact absurd hc (List.not_mem_nil c)
  · intro c hc
    exact absurd hc (List.not_mem_nil c)
  · intro hne
    exact absurd rfl hne
  · intro _
    refine ⟨rfl, ?_⟩
    intro b hb
    rw [List.mem_singleton] at hb
    subst hb
    rfl
  · intro hfr
    exact absurd hfr (List.cons_ne_nil _ _)
  · exact List.not_mem_nil e
  · refine ⟨?_, ?_, ?_, rfl, ⟨fun _ => 0, fun c => Nat.le_refl 0, ?_⟩⟩ <;>
      intro k v hkv <;> exact Option.noConfusion hkv
  · intro c hc
    exact absurd hc (List.not_mem_nil c)
  · intro b hb
    rw [List.mem_singleton] at hb
    subst hb
    exact Or.inr rfl
  · intro c hc
    exact absurd hc (List.not_mem_nil c)

theorem initial_phi_lt (maze : Maze) (w h : Nat) (hg : GoodMaze maze w h)
    (hw : 1 ≤ w) (hh : 1 ≤ h) (s : Coordination) (pri : Nat) :
    phi maze [(⟨s, 0, pri⟩ : Agent)] < solveFuel maze := by
  have hN : mazeCells maze = h * w := mazeCells_eq maze w h hg
  have hphi0 : phi maze [(⟨s, 0, pri⟩ : Agent)] = 5 ^ (mazeCells maze - 1) := by
    simp [phi]
  have hpos : 0 < mazeCells maze := by
    rw [hN]
    exact Nat.mul_pos (by omega) (by omega)
  rw [hphi0]
  unfold solveFuel
  exact Nat.pow_lt_pow_right (by norm_num) (by omega)

theorem solution_run (maze : Maze) (w h : Nat) (s e : Coordination)
    (hg : GoodMaze maze w h) (hw : 2 ≤ w) (hh : 2 ≤ h)
    (hsb : inBounds maze s = true) :
    (∃ p, MazeSolver.solution ⟨maze, s, e⟩ = .ok p ∧
       p.head? = some s ∧ p.getLast? = some e ∧ List.Chain' Adjacent p ∧
       (∀ c ∈ p, isOpen maze c ∨ c = s) ∧ manhattan s e ≤ p.length - 1) ∨
    (MazeSolver.solution ⟨maze, s, e⟩ = .noSolution ∧ ¬ Connects maze s e) := by
  have hinv0 : LoopInv maze s e
      ⟨heapPush [] ⟨s, 0, ManhattanDistance.distance s e⟩, [], []⟩ :=
    initial_loopInv maze s e _ hsb
  have hfuel : phi maze [(⟨s, 0, ManhattanDistance.distance s e⟩ : Agent)] <
      solveFuel maze := initial_phi_lt maze w h hg (by omega) (by omega) s _
  rcases searchLoop_master maze w h s e hg hw hh (solveFuel maze)
      ⟨heapPush [] ⟨s, 0, ManhattanDistance.distance s e⟩, [], []⟩ hinv0
      (by rw [heapPush_nil]; exact hfuel)
    with ⟨a, st', hrun, hgoal, hfound⟩ | ⟨st', hrun, hex⟩
  · left
    obtain ⟨r, hrb, hrlt⟩ := hfound.pm_inv.rank
    obtain ⟨tail, hrec, hchain, ⟨L, hL, hLn⟩, hvals⟩ :=
      reconstructGo_spec st'.parent_map r hrlt (st'.parent_map.length + 1)
        a.coordination [a.coordination]
        (by have := hrb a.coordination; omega)
    have hacoordexp : a.coordination ∈ st'.explored := by
      rw [← hgoal]
      exact hfound.ending_explored
    have htailexp : ∀ c ∈ tail, c ∈ st'.explored := by
      intro c hc
      obtain ⟨k, hk⟩ := hvals c hc
      exact hfound.pm_inv.values_explored k c hk
    have hLexp : L ∈ st'.explored := by
      have hLmem : L ∈ a.coordination :: tail := by
        rw [eq_dropLast_append _ L hL]
        simp
      rcases List.mem_cons.mp hLmem with rfl | hLt
      · exact hacoordexp
      · exact htailexp L hLt
    have hLs : L = s := by
      by_contra hne
      exact hfound.explored_keys L hLexp hne hLn
    refine ⟨(a.coordination :: tail).reverse, ?_, ?_, ?_, ?_, ?_, ?_⟩
    · have hrec' : reconstructGo st'.parent_map (st'.parent_map.length + 1)
          [a.coordination] a.coordination = some (a.coordination :: tail) := hrec
      exact solution_eq_found hrun hrec'
    · rw [List.head?_reverse, hL, hLs]
    · rw [List.getLast?_reverse, List.head?_cons, ← hgoal]
    · rw [List.chain'_reverse]
      refine List.Chain'.imp ?_ hchain
      intro x y hxy
      exact hfound.pm_inv.keys_adjacent x y hxy
    · intro c hc
      rw [List.mem_reverse] at hc
      rcases List.mem_cons.mp hc with rfl | hct
      · exact hfound.explored_open _ hacoordexp
      · exact hfound.explored_open c (htailexp c hct)
    · refine manhattan_le_chain _ s e ?_ ?_ ?_
      · rw [List.head?_reverse, hL, hLs]
      · rw [List.getLast?_reverse, List.head?_cons, ← hgoal]
      · rw [List.chain'_reverse]
        refine List.Chain'.imp ?_ hchain
        intro x y hxy
        exact hfound.pm_inv.keys_adjacent x y hxy
  · right
    refine ⟨solution_eq_exhausted hrun, ?_⟩
    rintro ⟨l, hhead, hlast, hchain, hopen⟩
    have hall := closed_reaches maze st'.explored hex.closed l hchain hopen s hhead
      hex.start_explored
    have hemem : e ∈ l := by
      rw [eq_dropLast_append l e hlast]
      simp
    exact hex.ending_unexplored (hall e hemem)

theorem exploredInsert_nil (c : Coordination) : exploredInsert [] c = [c] := rfl

theorem expand_hits_bad (maze : Maze) (ending : Coordination) (a : Agent)
    (bad : Coordination) (rest : List Coordination) (explored : ExploredSet)
    (hbad1 : bad ∉ explored) (hbad2 : Coordination.is_movable_in bad maze = none) :
    ∀ (pre : List Coordination), (∀ nb ∈ pre, inBounds maze nb = true) →
    ∀ (fr : List Agent) (pm : ParentMap),
    expandNeighbors maze ending a (pre ++ bad :: rest) explored fr pm = none := by
  intro pre
  induction pre with
  | nil =>
    intro _ fr pm
    simp [expandNeighbors, hbad1, hbad2]
  | cons p pre' ih =>
    intro hb fr pm
    have hbp : ∀ nb ∈ pre', inBounds maze nb = true :=
      fun nb hnb => hb nb (List.mem_cons_of_mem _ hnb)
    by_cases hmem : p ∈ explored
    · have heq : expandNeighbors maze ending a ((p :: pre') ++ bad :: rest)
          explored fr pm =
          expandNeighbors maze ending a (pre' ++ bad :: rest) explored fr pm := by
        simp [expandNeighbors, hmem]
      rw [heq]
      exact ih hbp fr pm
    · obtain ⟨bl, hbl, -⟩ :=
        is_movable_of_inBounds (hb p (List.mem_cons_self p pre'))
      cases bl with
      | false =>
        have heq : expandNeighbors maze ending a ((p :: pre') ++ bad :: rest)
            explored fr pm =
            expandNeighbors maze ending a (pre' ++ bad :: rest) explored fr pm := by
          simp [expandNeighbors, hmem, hbl]
        rw [heq]
        exact ih hbp fr pm
      | true =>
        have heq : expandNeighbors maze ending a ((p :: pre') ++ bad :: rest)
            explored fr pm =
            expandNeighbors maze ending a (pre' ++ bad :: rest) explored
              (heapPush fr ⟨p, a.steps + 1, a.steps + 1 + ManhattanDistance.distance p ending⟩)
              (pmInsert pm p a.coordination) := by
          simp [expandNeighbors, hmem, hbl]
        rw [heq]
        exact ih hbp _ _

theorem is_movable_oob {maze : Maze} {c : Coordination} (w h : Nat)
    (hg : GoodMaze maze w h) (hoob : ¬ (c.x < w ∧ c.y < h)) :
    Coordination.is_movable_in c maze = none := by
  unfold Coordination.is_movable_in mazeTile?
  rcases hr : maze.get? c.y with _ | row
  · rfl
  · have hrl : row.length = w := hg.2 row (List.get?_mem hr)
    have hylt : c.y < maze.length := get?_some_lt hr
    have hyh : c.y < h := by
      have := hg.1
      omega
    have hxw : ¬ c.x < w := fun hc => hoob ⟨hc, hyh⟩
    simp [List.getElem?_eq_none (show row.length ≤ c.x by omega)]

theorem searchLoop_fault_degenerate (maze : Maze) (w h : Nat) (hg : GoodMaze maze w h)
    (s e : Coordination) (hsb : inBounds maze s = true) (hne : e ≠ s)
    (hdeg : w = 1 ∨ h = 1) (pri : Nat) (fuel : Nat) :
    searchLoop maze e (fuel + 1) ⟨[⟨s, 0, pri⟩], [], []⟩ = .fault := by
  obtain ⟨hx, hy⟩ := (inBounds_iff maze w h hg s).mp hsb
  obtain ⟨hlen, hrows⟩ := hg
  rcases hmz : maze with _ | ⟨row0, tail⟩
  · exfalso
    rw [hmz] at hlen
    simp at hlen
    omega
  · rw [← hmz]
    have hrow0 : row0.length = w := hrows row0 (by rw [hmz]; exact List.mem_cons_self _ _)
    have hpop : heapPop ([⟨s, 0, pri⟩] : List Agent) = some (⟨s, 0, pri⟩, []) :=
      heapPop_singleton _
    have hgoal : ¬ e = (⟨s, 0, pri⟩ : Agent).coordination := hne
    have hnbs := neighbors_in_eq ⟨s, 0, pri⟩ row0 tail
    rw [← hmz] at hnbs
    by_cases hw1 : w = 1
    · have hx0 : s.x = 0 := by omega
      rw [if_pos hx0] at hnbs
      have hbadnm : (⟨1, s.y⟩ : Coordination) ∉ exploredInsert ([] : ExploredSet) s := by
        rw [exploredInsert_nil, List.mem_singleton]
        intro hc
        rw [← hc] at hx0
        simp at hx0
      have hbadmv : Coordination.is_movable_in ⟨1, s.y⟩ maze = none := by
        refine is_movable_oob w h ⟨hlen, hrows⟩ ?_
        simp only [not_and]
        intro hc
        omega
      have hexp := expand_hits_bad maze e ⟨s, 0, pri⟩ ⟨1, s.y⟩
        (if s.y = 0 then [(⟨s.x, 1⟩ : Coordination)]
         else if s.y = tail.length then [⟨s.x, s.y - 1⟩]
         else [⟨s.x, s.y + 1⟩, ⟨s.x, s.y - 1⟩])
        (exploredInsert [] s) hbadnm hbadmv [] (by simp) [] []
      rw [List.nil_append] at hexp
      exact searchLoop_pop_fault hpop hgoal hnbs hexp
    · have hh1 : h = 1 := by
        rcases hdeg with h1 | h1
        · exact absurd h1 hw1
        · exact h1
      have hy0 : s.y = 0 := by omega
      rw [if_pos hy0] at hnbs
      have hbadnm : (⟨s.x, 1⟩ : Coordination) ∉ exploredInsert ([] : ExploredSet) s := by
        rw [exploredInsert_nil, List.mem_singleton]
        intro hc
        rw [← hc] at hy0
        simp at hy0
      have hbadmv : Coordination.is_movable_in ⟨s.x, 1⟩ maze = none := by
        refine is_movable_oob w h ⟨hlen, hrows⟩ ?_
        simp only [not_and]
        intro hc
        omega
      have hxpre : ∀ nb ∈ (if s.x = 0 then [(⟨1, s.y⟩ : Coordination)]
          else if s.x = row0.length - 1 then [⟨s.x - 1, s.y⟩]
          else [⟨s.x + 1, s.y⟩, ⟨s.x - 1, s.y⟩]), inBounds maze nb = true := by
        intro nb hnb
        rw [hrow0] at hnb
        rw [mem_xNbrs s.x s.y hx (by omega) nb] at hnb
        rw [inBounds_iff maze w h ⟨hlen, hrows⟩ nb]
        omega
      have hexp := expand_hits_bad maze e ⟨s, 0, pri⟩ ⟨s.x, 1⟩ []
        (exploredInsert [] s) hbadnm hbadmv
        (if s.x = 0 then [(⟨1, s.y⟩ : Coordination)]
         else if s.x = row0.length - 1 then [⟨s.x - 1, s.y⟩]
         else [⟨s.x + 1, s.y⟩, ⟨s.x - 1, s.y⟩]) hxpre [] []
      exact searchLoop_pop_fault hpop hgoal hnbs hexp

theorem solution_fault_degenerate (maze : Maze) (w h : Nat) (hg : GoodMaze maze w h)
    (s e : Coordination) (hsb : inBounds maze s = true) (hne : e ≠ s)
    (hdeg : w = 1 ∨ h = 1) :
    MazeSolver.solution ⟨maze, s, e⟩ = .fault := by
  have hpos : 0 < solveFuel maze := pow_pos (by norm_num) _
  obtain ⟨k, hk⟩ : ∃ k, solveFuel maze = k + 1 := ⟨solveFuel maze - 1, by omega⟩
  refine solution_eq_fault ?_
  rw [hk, heapPush_nil]
  exact searchLoop_fault_degenerate maze w h hg s e hsb hne hdeg _ k

theorem openMaze3x3_wallfree :
    ∀ c : Coordination, inBounds openMaze3x3 c = true → isOpen openMaze3x3 c := by
  intro c hc
  obtain ⟨cx, cy⟩ := c
  have hb := (inBounds_iff openMaze3x3 3 3 (by decide) ⟨cx, cy⟩).mp hc
  have h1 : cx < 3 := hb.1
  have h2 : cy < 3 := hb.2
  interval_cases cx <;> interval_cases cy <;> decide

/-- C1 (corrected): on wall-free rectangular mazes (width and height at
least 2) the returned path's edge count is always at least the Manhattan
distance between the endpoints — but not always equal to it, see
`claim_C1_counterexample` — and on the concrete 3x3 all-Open grid with
start `(0,0)` and end `(2,2)` the returned path has exactly the 5
coordinates `(0,0),(0,1),(0,2),(1,2),(2,2)` (4 edges). -/
theorem claim_C1 :
    (∀ (maze : Maze) (w h : Nat) (s e : Coordination) (p : List Coordination),
      GoodMaze maze w h → 2 ≤ w → 2 ≤ h →
      (∀ c : Coordination, inBounds maze c = true → isOpen maze c) →
      inBounds maze s = true → inBounds maze e = true →
      MazeSolver.solution ⟨maze, s, e⟩ = RunResult.ok p →
      manhattan s e ≤ p.length - 1) ∧
    MazeSolver.solution ⟨openMaze3x3, ⟨0, 0⟩, ⟨2, 2⟩⟩ =
      RunResult.ok [⟨0, 0⟩, ⟨0, 1⟩, ⟨0, 2⟩, ⟨1, 2⟩, ⟨2, 2⟩] := by
  constructor
  · intro maze w h s e p hg hw hh hwf hsb heb hok
    rcases solution_run maze w h s e hg hw hh hsb with
      ⟨p0, hp0, -, -, -, -, hman⟩ | ⟨hns, -⟩
    · rw [hok] at hp0
      injection hp0 with hp0
      rw [hp0]
      exact hman
    · rw [hok] at hns
      exact absurd hns (by simp)
  · decide

theorem claim_C1_witness :
    GoodMaze openMaze3x3 3 3 ∧
    (∀ c : Coordination, inBounds openMaze3x3 c = true → isOpen openMaze3x3 c) ∧
    inBounds openMaze3x3 ⟨0, 0⟩ = true ∧ inBounds openMaze3x3 ⟨2, 2⟩ = true ∧
    MazeSolver.solution ⟨openMaze3x3, ⟨0, 0⟩, ⟨2, 2⟩⟩ =
      RunResult.ok [⟨0, 0⟩, ⟨0, 1⟩, ⟨0, 2⟩, ⟨1, 2⟩, ⟨2, 2⟩] ∧
    manhattan ⟨0, 0⟩ ⟨2, 2⟩ ≤
      [(⟨0, 0⟩ : Coordination), ⟨0, 1⟩, ⟨0, 2⟩, ⟨1, 2⟩, ⟨2, 2⟩].length - 1 :=
  ⟨by decide, openMaze3x3_wallfree, by decide, by decide, claim_C1.2,
    claim_C1.1 openMaze3x3 3 3 ⟨0, 0⟩ ⟨2, 2⟩ _ (by decide) (by decide) (by decide)
      openMaze3x3_wallfree (by decide) (by decide) claim_C1.2⟩

/-- C2 (corrected): for rectangular grids of width and height at least 2
with in-bounds Open endpoints, `solution` returns the no-solution outcome
iff no sequence of orthogonally adjacent Open cells connects start to end;
on width-1/height-1 grids the code panics instead (see
`claim_C2_counterexample`).  In the concrete walled 3x3 scenario
`"000","111","000"` with start `(0,0)`, end `(0,2)`, the result is the
no-solution outcome as a normal value. -/
theorem claim_C2 :
    (∀ (maze : Maze) (w h : Nat) (s e : Coordination),
      GoodMaze maze w h → 2 ≤ w → 2 ≤ h →
      inBounds maze s = true → inBounds maze e = true →
      isOpen maze s → isOpen maze e →
      (MazeSolver.solution ⟨maze, s, e⟩ = RunResult.noSolution ↔
        ¬ Connects maze s e)) ∧
    MazeSolver.solution ⟨walledMaze3x3, ⟨0, 0⟩, ⟨0, 2⟩⟩ = RunResult.noSolution := by
  constructor
  · intro maze w h s e hg hw hh hsb heb hos hoe
    rcases solution_run maze w h s e hg hw hh hsb with
      ⟨p, hok, hhead, hlast, hchain, hopen, -⟩ | ⟨hns, hnc⟩
    · constructor
      · intro hns
        rw [hok] at hns
        exact absurd hns (by simp)
      · intro hnc
        exfalso
        refine hnc ⟨p, hhead, hlast, hchain, ?_⟩
        intro c hc
        rcases hopen c hc with h1 | rfl
        · exact h1
        · exact hos
    · exact ⟨fun _ => hnc, fun _ => hns⟩
  · decide

theorem claim_C2_witness :
    GoodMaze walledMaze3x3 3 3 ∧ inBounds walledMaze3x3 ⟨0, 0⟩ = true ∧
    inBounds walledMaze3x3 ⟨0, 2⟩ = true ∧ isOpen walledMaze3x3 ⟨0, 0⟩ ∧
    isOpen walledMaze3x3 ⟨0, 2⟩ ∧
    (MazeSolver.solution ⟨walledMaze3x3, ⟨0, 0⟩, ⟨0, 2⟩⟩ = RunResult.noSolution ↔
      ¬ Connects walledMaze3x3 ⟨0, 0⟩ ⟨0, 2⟩) :=
  ⟨by decide, by decide, by decide, by decide, by decide,
    claim_C2.1 walledMaze3x3 3 3 ⟨0, 0⟩ ⟨0, 2⟩ (by decide) (by decide) (by decide)
      (by decide) (by decide) (by decide) (by decide)⟩

/-- C3 (confirmed): whenever `solution` returns a path on a rectangular
grid with in-bounds Open endpoints, the path starts at the start
coordinate, ends at the end coordinate, each consecutive pair is
orthogonally adjacent, and every coordinate on it is Open. -/
theorem claim_C3 (maze : Maze) (w h : Nat) (s e : Coordination) (p : List Coordination)
    (hg : GoodMaze maze w h) (hsb : inBounds maze s = true)
    (heb : inBounds maze e = true) (hos : isOpen maze s) (hoe : isOpen maze e)
    (hok : MazeSolver.solution ⟨maze, s, e⟩ = RunResult.ok p) :
    p.head? = some s ∧ p.getLast? = some e ∧ List.Chain' Adjacent p ∧
    ∀ c ∈ p, isOpen maze c := by
  by_cases hse : e = s
  · subst hse
    rw [solution_self] at hok
    injection hok with hok
    rw [← hok]
    refine ⟨rfl, rfl, by simp, ?_⟩
    intro c hc
    rw [List.mem_singleton] at hc
    subst hc
    exact hos
  · have hwh := (inBounds_iff maze w h hg s).mp hsb
    by_cases hdeg : w = 1 ∨ h = 1
    · exfalso
      rw [solution_fault_degenerate maze w h hg s e hsb hse hdeg] at hok
      exact absurd hok (by simp)
    · push_neg at hdeg
      have hw : 2 ≤ w := by omega
      have hh : 2 ≤ h := by omega
      rcases solution_run maze w h s e hg hw hh hsb with
        ⟨p0, hp0, hhead, hlast, hchain, hopen, -⟩ | ⟨hns, -⟩
      · rw [hok] at hp0
        injection hp0 with hp0
        subst hp0
        refine ⟨hhead, hlast, hchain, ?_⟩
        intro c hc
        rcases hopen c hc with h1 | rfl
        · exact h1
        · exact hos
      · rw [hok] at hns
        exact absurd hns (by simp)

theorem claim_C3_witness :
    GoodMaze openMaze3x3 3 3 ∧ inBounds openMaze3x3 ⟨0, 0⟩ = true ∧
    inBounds openMaze3x3 ⟨2, 2⟩ = true ∧ isOpen openMaze3x3 ⟨0, 0⟩ ∧
    isOpen openMaze3x3 ⟨2, 2⟩ ∧
    ([(⟨0, 0⟩ : Coordination), ⟨0, 1⟩, ⟨0, 2⟩, ⟨1, 2⟩, ⟨2, 2⟩].head? = some ⟨0, 0⟩ ∧
     [(⟨0, 0⟩ : Coordination), ⟨0, 1⟩, ⟨0, 2⟩, ⟨1, 2⟩, ⟨2, 2⟩].getLast? = some ⟨2, 2⟩ ∧
     List.Chain' Adjacent [(⟨0, 0⟩ : Coordination), ⟨0, 1⟩, ⟨0, 2⟩, ⟨1, 2⟩, ⟨2, 2⟩] ∧
     ∀ c ∈ [(⟨0, 0⟩ : Coordination), ⟨0, 1⟩, ⟨0, 2⟩, ⟨1, 2⟩, ⟨2, 2⟩],
       isOpen openMaze3x3 c) :=
  ⟨by decide, by decide, by decide, by decide, by decide,
    claim_C3 openMaze3x3 3 3 ⟨0, 0⟩ ⟨2, 2⟩ _ (by decide) (by decide) (by decide)
      (by decide) (by decide) (by decide)⟩

/-- C4 (corrected): for rectangular grids of width and height at least 2
with in-bounds Open endpoints, `solution` completes without a fault,
yielding a path or the no-solution outcome; but on single-row or
single-column grids with distinct endpoints the neighbor generator emits an
out-of-bounds coordinate whose traversability lookup panics, so the claimed
fault-freedom fails for those sizes. -/
theorem claim_C4 :
    (∀ (maze : Maze) (w h : Nat) (s e : Coordination),
      GoodMaze maze w h → 2 ≤ w → 2 ≤ h →
      inBounds maze s = true → inBounds maze e = true →
      isOpen maze s → isOpen maze e →
      (∃ p, MazeSolver.solution ⟨maze, s, e⟩ = RunResult.ok p) ∨
        MazeSolver.solution ⟨maze, s, e⟩ = RunResult.noSolution) ∧
    (∀ (maze : Maze) (w h : Nat) (s e : Coordination),
      GoodMaze maze w h → (w = 1 ∨ h = 1) →
      inBounds maze s = true → e ≠ s →
      MazeSolver.solution ⟨maze, s, e⟩ = RunResult.fault) := by
  constructor
  · intro maze w h s e hg hw hh hsb heb hos hoe
    rcases solution_run maze w h s e hg hw hh hsb with
      ⟨p, hok, -, -, -, -, -⟩ | ⟨hns, -⟩
    · exact Or.inl ⟨p, hok⟩
    · exact Or.inr hns
  · intro maze w h s e hg hdeg hsb hne
    exact solution_fault_degenerate maze w h hg s e hsb hne hdeg

theorem claim_C4_witness :
    (GoodMaze openMaze3x3 3 3 ∧
      ((∃ p, MazeSolver.solution ⟨openMaze3x3, ⟨0, 0⟩, ⟨2, 2⟩⟩ = RunResult.ok p) ∨
        MazeSolver.solution ⟨openMaze3x3, ⟨0, 0⟩, ⟨2, 2⟩⟩ = RunResult.noSolution)) ∧
    (GoodMaze column2 1 2 ∧
      MazeSolver.solution ⟨column2, ⟨0, 0⟩, ⟨0, 1⟩⟩ = RunResult.fault) :=
  ⟨⟨by decide, claim_C4.1 openMaze3x3 3 3 ⟨0, 0⟩ ⟨2, 2⟩ (by decide) (by decide)
      (by decide) (by decide) (by decide) (by decide) (by decide)⟩,
   ⟨by decide, claim_C4.2 column2 1 2 ⟨0, 0⟩ ⟨0, 1⟩ (by decide) (by decide)
      (by decide) (by decide)⟩⟩

/-- C7 (corrected): for rectangular grids of width and height at least 2
with in-bounds endpoints, the search loop terminates within the
`5 ^ cells` budget either by popping the goal — in which case the
path-reconstruction loop reaches a coordinate with no parent entry within
`parent_map.length + 1` steps — or by frontier exhaustion; on single-row or
single-column grids with distinct endpoints the loop instead ends in an
index panic. -/
theorem claim_C7 :
    (∀ (maze : Maze) (w h : Nat) (s e : Coordination),
      GoodMaze maze w h → 2 ≤ w → 2 ≤ h →
      inBounds maze s = true → inBounds maze e = true →
      (∃ a st', searchLoop maze e (solveFuel maze)
          ⟨heapPush [] ⟨s, 0, ManhattanDistance.distance s e⟩, [], []⟩ =
          LoopResult.found a st' ∧ e = a.coordination ∧
          reconstructGo st'.parent_map (st'.parent_map.length + 1)
            [a.coordination] a.coordination ≠ none) ∨
      (∃ st', searchLoop maze e (solveFuel maze)
          ⟨heapPush [] ⟨s, 0, ManhattanDistance.distance s e⟩, [], []⟩ =
          LoopResult.exhausted st')) ∧
    (∀ (maze : Maze) (w h : Nat) (s e : Coordination),
      GoodMaze maze w h → (w = 1 ∨ h = 1) →
      inBounds maze s = true → e ≠ s →
      searchLoop maze e (solveFuel maze)
        ⟨heapPush [] ⟨s, 0, ManhattanDistance.distance s e⟩, [], []⟩ =
        LoopResult.fault) := by
  constructor
  · intro maze w h s e hg hw hh hsb heb
    have hinv0 : LoopInv maze s e
        ⟨heapPush [] ⟨s, 0, ManhattanDistance.distance s e⟩, [], []⟩ :=
      initial_loopInv maze s e _ hsb
    have hfuel : phi maze [(⟨s, 0, ManhattanDistance.distance s e⟩ : Agent)] <
        solveFuel maze := initial_phi_lt maze w h hg (by omega) (by omega) s _
    rcases searchLoop_master maze w h s e hg hw hh (solveFuel maze)
        ⟨heapPush [] ⟨s, 0, ManhattanDistance.distance s e⟩, [], []⟩ hinv0
        (by rw [heapPush_nil]; exact hfuel)
      with ⟨a, st', hrun, hgoal, hfound⟩ | ⟨st', hrun, -⟩
    · left
      obtain ⟨r, hrb, hrlt⟩ := hfound.pm_inv.rank
      obtain ⟨tail, hrec, -, -, -⟩ :=
        reconstructGo_spec st'.parent_map r hrlt (st'.parent_map.length + 1)
          a.coordination [a.coordination]
          (by have := hrb a.coordination; omega)
      refine ⟨a, st', hrun, hgoal, ?_⟩
      rw [hrec]
      exact Option.noConfusion
    · exact Or.inr ⟨st', hrun⟩
  · intro maze w h s e hg hdeg hsb hne
    have hpos : 0 < solveFuel maze := pow_pos (by norm_num) _
    obtain ⟨k, hk⟩ : ∃ k, solveFuel maze = k + 1 := ⟨solveFuel maze - 1, by omega⟩
    rw [hk, heapPush_nil]
    exact searchLoop_fault_degenerate maze w h hg s e hsb hne hdeg _ k

theorem claim_C7_witness :
    (GoodMaze openMaze3x3 3 3 ∧
      ((∃ a st', searchLoop openMaze3x3 ⟨2, 2⟩ (solveFuel openMaze3x3)
          ⟨heapPush [] ⟨⟨0, 0⟩, 0, ManhattanDistance.distance ⟨0, 0⟩ ⟨2, 2⟩⟩, [], []⟩ =
          LoopResult.found a st' ∧ (⟨2, 2⟩ : Coordination) = a.coordination ∧
          reconstructGo st'.parent_map (st'.parent_map.length + 1)
            [a.coordination] a.coordination ≠ none) ∨
       (∃ st', searchLoop openMaze3x3 ⟨2, 2⟩ (solveFuel openMaze3x3)
          ⟨heapPush [] ⟨⟨0, 0⟩, 0, ManhattanDistance.distance ⟨0, 0⟩ ⟨2, 2⟩⟩, [], []⟩ =
          LoopResult.exhausted st'))) ∧
    (GoodMaze row2 2 1 ∧
      searchLoop row2 ⟨1, 0⟩ (solveFuel row2)
        ⟨heapPush [] ⟨⟨0, 0⟩, 0, ManhattanDistance.distance ⟨0, 0⟩ ⟨1, 0⟩⟩, [], []⟩ =
        LoopResult.fault) :=
  ⟨⟨by decide, claim_C7.1 openMaze3x3 3 3 ⟨0, 0⟩ ⟨2, 2⟩ (by decide) (by decide)
      (by decide) (by decide) (by decide)⟩,
   ⟨by decide, claim_C7.2 row2 2 1 ⟨0, 0⟩ ⟨1, 0⟩ (by decide) (by decide)
      (by decide) (by decide)⟩⟩
